import Mathlib

/-!
Verification of the compressor repository: a universal natural-number codec
(`nat_encoder.py`), a hashed Lempel-Ziv matcher (`hashed_lampel_ziv.py`) and a
Huffman codec (`huffman_coding.py`).

Bit buffers (`bitarray`) are embedded as `List Bool`, most significant bit
first wherever a numeric value is read or written.  Python's lenient slicing
is modelled by `pySlice`; fallible operations return `Except String`.
-/

/-- Python slice `l[a:b]` with non-negative bounds: lenient (clamps). -/
def pySlice (l : List Bool) (a b : Nat) : List Bool := (l.drop a).take (b - a)

/-- `int(s, 2)` over a bit string, MSB first (empty gives 0; callers guard emptiness
where Python would raise). -/
def bitsToNat (l : List Bool) : Nat := l.foldl (fun a b => 2 * a + (if b then 1 else 0)) 0

/-- `bitarray.find(1)`: index of the first set bit, `none` when absent (Python `-1`). -/
def find1 : List Bool → Option Nat
  | [] => none
  | b :: t => if b then some 0 else (find1 t).map (· + 1)

/-- Minimal big-endian binary representation, with a fuel argument (the source's
`int2ba(x)` / `bin(x)`); `fuel ≥ x` makes it exact. -/
def natBitsAux : Nat → Nat → List Bool
  | _, 0 => [false]
  | _, 1 => [true]
  | 0, _ => []
  | fuel + 1, x => natBitsAux fuel (x / 2) ++ [decide (x % 2 = 1)]

/-- Minimal big-endian binary representation of `x` (`f'{x:b}'`; `0 ↦ "0"`). -/
def natBits (x : Nat) : List Bool := natBitsAux x x

/-- Python `f'{x:0{w}b}'`: `x` in binary, left zero-padded to width `w`
(silently wider when `x` needs more than `w` bits). -/
def padded (x w : Nat) : List Bool :=
  List.replicate (w - (natBits x).length) false ++ natBits x

/-- `Except.isOk`, for stating which inputs raise. -/
def exOk : Except String α → Bool
  | .ok _ => true
  | .error _ => false

section BitsLemmas

theorem bitsToNat_go (l : List Bool) :
    ∀ a : Nat, l.foldl (fun a b => 2 * a + (if b then 1 else 0)) a
      = a * 2 ^ l.length + bitsToNat l := by
  induction l with
  | nil => intro a; simp [bitsToNat]
  | cons b t ih =>
      intro a
      show t.foldl _ (2 * a + _) = _
      rw [ih (2 * a + (if b then 1 else 0))]
      have hb : bitsToNat (b :: t) = (if b then 1 else 0) * 2 ^ t.length + bitsToNat t := by
        show t.foldl _ (2 * 0 + _) = _
        rw [ih (2 * 0 + (if b then 1 else 0))]
        ring_nf
      rw [hb]
      rcases b with _ | _ <;> simp [List.length_cons, pow_succ] <;> ring

theorem bitsToNat_append (l₁ l₂ : List Bool) :
    bitsToNat (l₁ ++ l₂) = bitsToNat l₁ * 2 ^ l₂.length + bitsToNat l₂ := by
  unfold bitsToNat
  rw [List.foldl_append]
  exact bitsToNat_go l₂ _

theorem bitsToNat_cons (b : Bool) (t : List Bool) :
    bitsToNat (b :: t) = (if b then 1 else 0) * 2 ^ t.length + bitsToNat t := by
  have := bitsToNat_append [b] t
  simpa [bitsToNat] using this

theorem bitsToNat_lt (l : List Bool) : bitsToNat l < 2 ^ l.length := by
  induction l with
  | nil => simp [bitsToNat]
  | cons b t ih =>
      rw [bitsToNat_cons]
      rcases b with _ | _ <;> simp [List.length_cons, pow_succ] <;> omega

theorem bitsToNat_replicate_false (k : Nat) : bitsToNat (List.replicate k false) = 0 := by
  induction k with
  | zero => simp [bitsToNat]
  | succ n ih =>
      rw [List.replicate_succ, bitsToNat_cons]
      simpa using ih

theorem bitsToNat_inj (l₁ l₂ : List Bool) (hlen : l₁.length = l₂.length)
    (h : bitsToNat l₁ = bitsToNat l₂) : l₁ = l₂ := by
  induction l₁ generalizing l₂ with
  | nil => cases l₂ with
      | nil => rfl
      | cons b t => simp at hlen
  | cons a t ih =>
      cases l₂ with
      | nil => simp at hlen
      | cons b t' =>
          simp only [List.length_cons] at hlen
          have hlen' : t.length = t'.length := by omega
          rw [bitsToNat_cons, bitsToNat_cons] at h
          have h₁ := bitsToNat_lt t
          have h₂ := bitsToNat_lt t'
          rw [hlen'] at h₁
          rw [hlen'] at h
          have hab : a = b := by
            rcases a with _ | _ <;> rcases b with _ | _ <;> simp at h ⊢ <;> omega
          subst hab
          have ht : bitsToNat t = bitsToNat t' := by
            rcases a with _ | _ <;> simp at h <;> omega
          rw [ih t' hlen' ht]

theorem natBitsAux_spec : ∀ fuel x, x ≤ fuel →
    bitsToNat (natBitsAux fuel x) = x
    ∧ (natBitsAux fuel x).length = Nat.log2 x + 1
    ∧ (x ≠ 0 → ∃ t, natBitsAux fuel x = true :: t) := by
  intro fuel
  induction fuel with
  | zero =>
      intro x hx
      interval_cases x
      refine ⟨?_, ?_, ?_⟩ <;> simp [natBitsAux, bitsToNat, Nat.log2]
  | succ f ih =>
      intro x hx
      match x with
      | 0 => refine ⟨?_, ?_, ?_⟩ <;> simp [natBitsAux, bitsToNat, Nat.log2]
      | 1 => refine ⟨?_, ?_, ?_⟩ <;> simp [natBitsAux, bitsToNat, Nat.log2]
      | x + 2 =>
          have hdiv : (x + 2) / 2 ≤ f := by omega
          obtain ⟨hval, hlen, hhead⟩ := ih ((x + 2) / 2) hdiv
          have hne : (x + 2) / 2 ≠ 0 := by omega
          have hexp : natBitsAux (f + 1) (x + 2)
              = natBitsAux f ((x + 2) / 2) ++ [decide ((x + 2) % 2 = 1)] := rfl
          refine ⟨?_, ?_, ?_⟩
          · rw [hexp, bitsToNat_append, hval]
            have : bitsToNat [decide ((x + 2) % 2 = 1)] = (x + 2) % 2 := by
              rcases Nat.mod_two_eq_zero_or_one (x + 2) with h | h <;> simp [h, bitsToNat]
            rw [this]
            simp only [List.length_singleton, pow_one]
            omega
          · rw [hexp, List.length_append, hlen]
            have hlog : Nat.log2 (x + 2) = Nat.log2 ((x + 2) / 2) + 1 := by
              rw [Nat.log2]
              simp [show 2 ≤ x + 2 by omega]
            simp [hlog]
          · intro _
            obtain ⟨t, ht⟩ := hhead hne
            exact ⟨t ++ [decide ((x + 2) % 2 = 1)], by rw [hexp, ht]; rfl⟩

theorem bitsToNat_natBits (x : Nat) : bitsToNat (natBits x) = x :=
  (natBitsAux_spec x x le_rfl).1

theorem length_natBits (x : Nat) : (natBits x).length = Nat.log2 x + 1 :=
  (natBitsAux_spec x x le_rfl).2.1

theorem natBits_head (x : Nat) (hx : x ≠ 0) : ∃ t, natBits x = true :: t :=
  (natBitsAux_spec x x le_rfl).2.2 hx

theorem length_natBits_le {x w : Nat} (hw : 1 ≤ w) (hx : x < 2 ^ w) :
    (natBits x).length ≤ w := by
  rw [length_natBits]
  rcases Nat.eq_zero_or_pos x with h | h
  · subst h; simpa [Nat.log2] using hw
  · have : Nat.log2 x < w := (Nat.log2_lt (by omega)).2 hx
    omega

theorem padded_length {x w : Nat} (hw : 1 ≤ w) (hx : x < 2 ^ w) :
    (padded x w).length = w := by
  unfold padded
  rw [List.length_append, List.length_replicate]
  have := length_natBits_le hw hx
  omega

theorem bitsToNat_padded (x w : Nat) : bitsToNat (padded x w) = x := by
  unfold padded
  rw [bitsToNat_append, bitsToNat_replicate_false, bitsToNat_natBits]
  simp

theorem padded_of_length {c : List Bool} {w : Nat} (hw : 1 ≤ w) (hc : c.length = w) :
    padded (bitsToNat c) w = c := by
  have hlt : bitsToNat c < 2 ^ w := hc ▸ bitsToNat_lt c
  refine bitsToNat_inj _ _ ?_ ?_
  · rw [padded_length hw hlt, hc]
  · rw [bitsToNat_padded]

theorem take_len_append (l₁ l₂ : List Bool) (n : Nat) (h : l₁.length = n) :
    (l₁ ++ l₂).take n = l₁ := by
  subst h; exact List.take_left _ _

theorem drop_len_append (l₁ l₂ : List Bool) (n : Nat) (h : l₁.length = n) :
    (l₁ ++ l₂).drop n = l₂ := by
  subst h; exact List.drop_left _ _

theorem find1_replicate_append (k : Nat) (tl : List Bool) :
    find1 (List.replicate k false ++ true :: tl) = some k := by
  induction k with
  | zero => simp [find1]
  | succ n ih => simp [List.replicate_succ, find1, ih]

theorem find1_replicate_false (k : Nat) : find1 (List.replicate k false) = none := by
  induction k with
  | zero => rfl
  | succ n ih => simp [List.replicate_succ, find1, ih]

end BitsLemmas

/-! ## `nat_encoder.py` -/

def SMALL_NUMBER_BITS : Nat := 5

/-- `encode_number(bit_data, number)` from `nat_encoder.py`: appends the code of
`number` to `bit_data`; raises on negative input.  `math.floor(math.log2 n)` is
embedded as `Nat.log2 n` (exact over the claim's range). -/
def encode_number (bit_data : List Bool) (number : Int) : Except String (List Bool) :=
  if number < 0 then .error "Unexpected negative"
  else
    let n := number.toNat
    if n < 2 ^ SMALL_NUMBER_BITS then
      .ok (bit_data ++ [true] ++ padded n SMALL_NUMBER_BITS)
    else
      let logn := 1 + Nat.log2 n
      let loglogn := 1 + Nat.log2 logn
      .ok (bit_data ++ List.replicate loglogn false ++ natBits logn ++ natBits n)

/-- The pure bit pattern `encode_number` appends for a non-negative `n`. -/
def encBits (n : Nat) : List Bool :=
  if n < 2 ^ SMALL_NUMBER_BITS then
    [true] ++ padded n SMALL_NUMBER_BITS
  else
    List.replicate (1 + Nat.log2 (1 + Nat.log2 n)) false
      ++ natBits (1 + Nat.log2 n) ++ natBits n

/-- `decode_number(bit_data)` from `nat_encoder.py`: destructively consumes a
prefix; returned as `(value, remaining buffer)`.  Errors model Python's
`IndexError` (`bit_data[0]` on an empty buffer) and `ValueError` (`ba2int` on
an empty slice, including the negative-index slice after `find` returns -1). -/
def decode_number (bit_data : List Bool) : Except String (Nat × List Bool) :=
  match bit_data with
  | [] => .error "IndexError"
  | first_bit :: _ =>
    if first_bit then
      let number_bits := pySlice bit_data 1 (1 + SMALL_NUMBER_BITS)
      if number_bits.isEmpty then .error "ValueError"
      else .ok (bitsToNat number_bits, bit_data.drop (1 + SMALL_NUMBER_BITS))
    else
      match find1 bit_data with
      | none => .error "ValueError"
      | some first_1_idx =>
        let loglogn := first_1_idx
        let logn_end_idx := first_1_idx + loglogn
        let logn := bitsToNat (pySlice bit_data first_1_idx logn_end_idx)
        let n_end_idx := logn_end_idx + logn
        let nslice := pySlice bit_data logn_end_idx n_end_idx
        if nslice.isEmpty then .error "ValueError"
        else .ok (bitsToNat nslice, bit_data.drop n_end_idx)

/-- Decode `k` concatenated codes in sequence. -/
def decodeAll : Nat → List Bool → Except String (List Nat × List Bool)
  | 0, l => .ok ([], l)
  | k + 1, l => do
      let (n, l') ← decode_number l
      let (ns, l'') ← decodeAll k l'
      .ok (n :: ns, l'')
theorem encode_number_ok (buf : List Bool) (n : Nat) :
    encode_number buf (n : Int) = .ok (buf ++ encBits n) := by
  unfold encode_number encBits
  have h0 : ¬ ((n : Int) < 0) := by simp
  simp only [h0, if_false, Int.toNat_natCast]
  by_cases h : n < 2 ^ SMALL_NUMBER_BITS <;> simp [h, List.append_assoc]

theorem decode_encBits (n : Nat) (rest : List Bool) :
    decode_number (encBits n ++ rest) = .ok (n, rest) := by
  by_cases h : n < 2 ^ SMALL_NUMBER_BITS
  · have hS : (1 : Nat) ≤ SMALL_NUMBER_BITS := by norm_num [SMALL_NUMBER_BITS]
    have hplen : (padded n SMALL_NUMBER_BITS).length = SMALL_NUMBER_BITS :=
      padded_length hS h
    have hshape : encBits n ++ rest = true :: (padded n SMALL_NUMBER_BITS ++ rest) := by
      simp [encBits, h]
    rw [hshape]
    unfold decode_number
    simp only [if_pos]
    have hslice : pySlice (true :: (padded n SMALL_NUMBER_BITS ++ rest)) 1 (1 + SMALL_NUMBER_BITS)
        = padded n SMALL_NUMBER_BITS := by
      show (padded n SMALL_NUMBER_BITS ++ rest).take (1 + SMALL_NUMBER_BITS - 1) = _
      exact take_len_append _ _ _ (by omega)
    rw [hslice]
    have hne : (padded n SMALL_NUMBER_BITS).isEmpty = false := by
      cases hp : padded n SMALL_NUMBER_BITS with
      | nil => rw [hp] at hplen; simp [SMALL_NUMBER_BITS] at hplen
      | cons a t => rfl
    simp only [hne, Bool.false_eq_true, if_false]
    have hdrop : (true :: (padded n SMALL_NUMBER_BITS ++ rest)).drop (1 + SMALL_NUMBER_BITS)
        = rest := by
      show (padded n SMALL_NUMBER_BITS ++ rest).drop (1 + SMALL_NUMBER_BITS - 1) = rest
      exact drop_len_append _ _ _ (by omega)
    rw [hdrop, bitsToNat_padded]
  · -- large-number path
    have hn1 : n ≠ 0 := by
      intro h0; rw [h0] at h; exact h (by norm_num [SMALL_NUMBER_BITS])
    set logn := 1 + Nat.log2 n with hlogn
    set llg := 1 + Nat.log2 logn with hllg
    have hlogn0 : logn ≠ 0 := by omega
    have hlenlog : (natBits logn).length = llg := by rw [length_natBits]; omega
    have hlenn : (natBits n).length = logn := by rw [length_natBits]; omega
    have hshape : encBits n ++ rest
        = List.replicate llg false ++ (natBits logn ++ (natBits n ++ rest)) := by
      simp [encBits, h, List.append_assoc]
    obtain ⟨tl, htl⟩ := natBits_head logn hlogn0
    have hllg1 : 1 ≤ llg := by omega
    have hshape' : encBits n ++ rest
        = false :: (List.replicate (llg - 1) false ++ (natBits logn ++ (natBits n ++ rest))) := by
      obtain ⟨k, hk⟩ : ∃ k, llg = k + 1 := ⟨llg - 1, by omega⟩
      rw [hshape, hk]
      simp [List.replicate_succ]
    have hfind : find1 (encBits n ++ rest) = some llg := by
      rw [hshape, htl]
      exact find1_replicate_append llg (tl ++ (natBits n ++ rest))
    have hdropllg : (encBits n ++ rest).drop llg = natBits logn ++ (natBits n ++ rest) := by
      rw [hshape]
      exact drop_len_append _ _ _ (by simp)
    have hslice1 : pySlice (encBits n ++ rest) llg (llg + llg) = natBits logn := by
      unfold pySlice
      rw [hdropllg]
      exact take_len_append _ _ _ (by omega)
    have hdrop2 : (encBits n ++ rest).drop (llg + llg) = natBits n ++ rest := by
      rw [← List.drop_drop, hdropllg]
      exact drop_len_append _ _ _ (by omega)
    have hslice2 : pySlice (encBits n ++ rest) (llg + llg) (llg + llg + logn) = natBits n := by
      unfold pySlice
      rw [hdrop2]
      exact take_len_append _ _ _ (by omega)
    have hdrop3 : (encBits n ++ rest).drop (llg + llg + logn) = rest := by
      rw [← List.drop_drop, hdrop2]
      exact drop_len_append _ _ _ (by omega)
    have hne : (natBits n).isEmpty = false := by
      obtain ⟨t, ht⟩ := natBits_head n hn1
      rw [ht]; rfl
    rw [hshape']
    unfold decode_number
    simp only [Bool.false_eq_true, if_false]
    rw [show (false :: (List.replicate (llg - 1) false ++ (natBits logn ++ (natBits n ++ rest))))
        = encBits n ++ rest from hshape'.symm, hfind]
    dsimp only
    rw [hslice1, bitsToNat_natBits, hslice2]
    simp only [hne, Bool.false_eq_true, if_false]
    rw [bitsToNat_natBits, hdrop3]

theorem decodeAll_encBits (ns : List Nat) :
    decodeAll ns.length ((ns.map encBits).flatten) = .ok (ns, []) := by
  induction ns with
  | nil => rfl
  | cons n t ih =>
      show decodeAll (t.length + 1) (encBits n ++ (t.map encBits).flatten) = _
      unfold decodeAll
      rw [decode_encBits n ((t.map encBits).flatten)]
      show (decodeAll t.length ((t.map encBits).flatten)).bind _ = _
      rw [ih]
      rfl

/-- C2: for every `n ≥ 0`, `encode_number` appends `encBits n` and succeeds; a
code followed by anything decodes back to `n` consuming exactly the appended
bits; and any finite sequence of concatenated codes decodes sequentially to the
original numbers in order, leaving the buffer empty. -/
theorem nat_codec_roundtrip :
    (∀ (buf : List Bool) (n : Nat), encode_number buf (n : Int) = .ok (buf ++ encBits n))
    ∧ (∀ (n : Nat) (rest : List Bool), decode_number (encBits n ++ rest) = .ok (n, rest))
    ∧ (∀ ns : List Nat, decodeAll ns.length ((ns.map encBits).flatten) = .ok (ns, [])) :=
  ⟨encode_number_ok, decode_encBits, decodeAll_encBits⟩

/-- C4 counterexample: on the 2-bit buffer `10` — too short for the 6-bit
small-number field — `decode_number` silently returns 0 and consumes the whole
buffer instead of failing. -/
theorem decode_number_short_silently_ok :
    decode_number [true, false] = .ok (0, []) := by rfl

/-- C4 (amended): `encode_number` errors exactly on negative inputs;
`decode_number` errors on the empty buffer, on the one-bit buffer `1`, and on
any buffer of only zero bits, but a too-short buffer whose sliced fields are
merely truncated (e.g. `10`) silently yields a value. -/
theorem nat_codec_errors :
    (∀ (buf : List Bool) (n : Int), exOk (encode_number buf n) = decide (0 ≤ n))
    ∧ exOk (decode_number []) = false
    ∧ exOk (decode_number [true]) = false
    ∧ (∀ k : Nat, exOk (decode_number (List.replicate (k + 1) false)) = false)
    ∧ decode_number [true, false] = .ok (0, []) := by
  refine ⟨?_, rfl, rfl, ?_, rfl⟩
  · intro buf n
    unfold encode_number
    by_cases h : n < 0
    · simp [h, exOk, show ¬ (0 ≤ n) by omega]
    · have h' : (0 : Int) ≤ n := by omega
      simp only [h, if_false, h', decide_eq_true_eq]
      by_cases h2 : n.toNat < 2 ^ SMALL_NUMBER_BITS <;> simp [h2, exOk]
  · intro k
    show exOk (decode_number (false :: List.replicate k false)) = false
    unfold decode_number
    have : find1 (false :: List.replicate k false) = none := by
      simpa [List.replicate_succ] using find1_replicate_false (k + 1)
    simp [this, exOk]

/-! ## `hashed_lampel_ziv.py` -/

/-- `data[k*8:(k+1)*8]`: the byte at byte position `k`. -/
def byteAt (data : List Bool) (k : Nat) : List Bool :=
  pySlice data (k * 8) ((k + 1) * 8)

/-- `data[p*8:(p+K)*8].to01()`: the k-gram hash key starting at byte `p`
(the bit string is kept as the key itself). -/
def gramAt (data : List Bool) (K p : Nat) : List Bool :=
  pySlice data (p * 8) ((p + K) * 8)

/-- The hash table: key (k-gram) to the byte positions registered under it,
in insertion order. -/
abbrev HashTable := List (List Bool × List Nat)

/-- `hash_table[key].append(pos)` (creating the entry when absent). -/
def htAppend : HashTable → List Bool → Nat → HashTable
  | [], key, pos => [(key, [pos])]
  | (k, ps) :: t, key, pos =>
      if k = key then (k, ps ++ [pos]) :: t else (k, ps) :: htAppend t key pos

/-- The inner `while` loop of the matcher, computing one candidate's run
length; fuel `match_length + 1` is always enough. -/
def runLenAux (data : List Bool) (byte_count j i match_length : Nat) :
    Nat → Nat → Nat
  | 0, length => length
  | fuel + 1, length =>
    if length < match_length ∧ i + length < byte_count - 1
        ∧ byteAt data (j + length) = byteAt data (i + length) then
      runLenAux data byte_count j i match_length fuel (length + 1)
    else length

/-- Run length of candidate `j` against position `i`. -/
def runLen (data : List Bool) (byte_count j i match_length : Nat) : Nat :=
  runLenAux data byte_count j i match_length (match_length + 1) 0

/-- The `for j in hash_table[hash_key]` loop: window guard
`max(0, i - search_length) <= j < i` (truncated subtraction is Python's
`max(0, ·)`), strictly-greater update of the running best. -/
def scanCands (data : List Bool) (byte_count W L i : Nat) :
    List Nat → Nat × Nat → Nat × Nat
  | [], best => best
  | j :: js, (best_offset, best_length) =>
    if i - W ≤ j ∧ j < i then
      let length := runLen data byte_count j i L
      if best_length < length then
        scanCands data byte_count W L i js (i - j, length)
      else
        scanCands data byte_count W L i js (best_offset, best_length)
    else scanCands data byte_count W L i js (best_offset, best_length)

/-- The candidate search of one step: hash-key lookup guarded by
`i + minimum_match_length <= byte_count`, then the candidate scan. -/
def findBest (data : List Bool) (byte_count W L K i : Nat) (ht : HashTable) :
    Nat × Nat :=
  if i + K ≤ byte_count then
    match List.lookup (gramAt data K i) ht with
    | some cands => scanCands data byte_count W L i cands (0, 0)
    | none => (0, 0)
  else (0, 0)

/-- `for start_pos in range(max(0, i - K + 1), i + 1)`: register every k-gram
whose start lies in that range and fits the buffer. -/
def registerAll (data : List Bool) (byte_count K i : Nat) (ht : HashTable) :
    HashTable :=
  (List.range' (i + 1 - K) (i + 1 - (i + 1 - K))).foldl
    (fun ht start_pos =>
      if start_pos + K ≤ byte_count then htAppend ht (gramAt data K start_pos) start_pos
      else ht) ht

/-- The main `while i < byte_count` loop; fuel `byte_count` is always enough
since `i` advances by at least one each step. -/
def hlzLoop (data : List Bool) (W L K byte_count : Nat) :
    Nat → Nat → HashTable → List (Nat × Nat × List Bool)
  | 0, _, _ => []
  | fuel + 1, i, ht =>
    if i < byte_count then
      let best := findBest data byte_count W L K i ht
      let ht' := registerAll data byte_count K i ht
      let next_byte := byteAt data (i + best.2)
      (best.1, best.2, next_byte) :: hlzLoop data W L K byte_count fuel (i + best.2 + 1) ht'
    else []

/-- `hashed_lempel_ziv(data, search_length, match_length, minimum_match_length)`. -/
def hashed_lempel_ziv (data : List Bool)
    (search_length match_length minimum_match_length : Nat) :
    List (Nat × Nat × List Bool) :=
  hlzLoop data search_length match_length minimum_match_length
    (data.length / 8) (data.length / 8) 0 []

/-- The bits of byte `'A'` (0x41). -/
def byteA : List Bool := [false, true, false, false, false, false, false, true]

/-- C8: on `b"AAAAA"` with `search_length=3, match_length=3,
minimum_match_length=1`, the matcher emits exactly `[(0,0,'A'), (1,3,'A')]`. -/
theorem lz_scenario_bytes :
    hashed_lempel_ziv (byteA ++ byteA ++ byteA ++ byteA ++ byteA) 3 3 1
      = [(0, 0, byteA), (1, 3, byteA)] := by decide

/-- C9 counterexample: on the 4-bit input `'1010'` with `search_length=2,
match_length=2, minimum_match_length=1` the matcher does not emit the claimed
three tokens. -/
theorem lz_scenario_bits_refuted :
    hashed_lempel_ziv [true, false, true, false] 2 2 1
      ≠ [(0, 0, [true]), (0, 0, [false]), (2, 1, [false])] := by decide

/-- C9 (amended): on the 4-bit input `'1010'` the byte-granular matcher emits
no token at all, since `4 // 8 = 0` whole bytes. -/
theorem lz_scenario_bits :
    hashed_lempel_ziv [true, false, true, false] 2 2 1 = [] := by rfl

section LZLemmas

theorem runLenAux_le (data : List Bool) (byte_count j i L : Nat) : ∀ fuel len, len ≤ L →
    runLenAux data byte_count j i L fuel len ≤ L := by
  intro fuel
  induction fuel with
  | zero => intro len h; exact h
  | succ f ih =>
      intro len h
      unfold runLenAux
      split
      · next hcond => exact ih (len + 1) (by omega)
      · exact h

theorem runLenAux_tail (data : List Bool) (byte_count j i L : Nat) : ∀ fuel len,
    runLenAux data byte_count j i L fuel len = len
    ∨ i + runLenAux data byte_count j i L fuel len ≤ byte_count - 1 := by
  intro fuel
  induction fuel with
  | zero => intro len; exact Or.inl rfl
  | succ f ih =>
      intro len
      unfold runLenAux
      split
      · next hcond =>
          rcases ih (len + 1) with h | h
          · right; rw [h]; omega
          · right; exact h
      · exact Or.inl rfl

theorem runLen_le (data : List Bool) (byte_count j i L : Nat) :
    runLen data byte_count j i L ≤ L :=
  runLenAux_le data byte_count j i L (L + 1) 0 (Nat.zero_le L)

theorem runLen_tail (data : List Bool) (byte_count j i L : Nat) :
    runLen data byte_count j i L = 0 ∨ i + runLen data byte_count j i L ≤ byte_count - 1 :=
  runLenAux_tail data byte_count j i L (L + 1) 0

/-- The per-step invariant of the running best pair. -/
def goodBest (byte_count W L i : Nat) (p : Nat × Nat) : Prop :=
  p.2 ≤ L ∧ (p.1 = 0 ↔ p.2 = 0) ∧ p.1 ≤ W ∧ (p.2 = 0 ∨ i + p.2 ≤ byte_count - 1)

theorem scanCands_good (data : List Bool) (byte_count W L i : Nat) :
    ∀ (cands : List Nat) (best : Nat × Nat),
    goodBest byte_count W L i best →
    goodBest byte_count W L i (scanCands data byte_count W L i cands best) := by
  intro cands
  induction cands with
  | nil => intro best h; exact h
  | cons j js ih =>
      rintro ⟨bo, bl⟩ h
      show goodBest byte_count W L i
        (if i - W ≤ j ∧ j < i then
          if bl < runLen data byte_count j i L then
            scanCands data byte_count W L i js (i - j, runLen data byte_count j i L)
          else scanCands data byte_count W L i js (bo, bl)
        else scanCands data byte_count W L i js (bo, bl))
      split
      · next hg =>
          split
          · next hlt =>
              refine ih _ ⟨runLen_le data byte_count j i L, ?_, ?_, ?_⟩
              · show i - j = 0 ↔ runLen data byte_count j i L = 0
                obtain ⟨h1, h2⟩ := hg
                constructor
                · intro h0; omega
                · intro h0; omega
              · show i - j ≤ W
                obtain ⟨h1, h2⟩ := hg
                omega
              · rcases runLen_tail data byte_count j i L with h0 | h0
                · left; exact h0
                · right; exact h0
          · exact ih _ h
      · exact ih _ h

theorem findBest_good (data : List Bool) (byte_count W L K i : Nat) (ht : HashTable) :
    goodBest byte_count W L i (findBest data byte_count W L K i ht) := by
  have hinit : goodBest byte_count W L i ((0, 0) : Nat × Nat) :=
    ⟨Nat.zero_le L, by simp, Nat.zero_le W, Or.inl rfl⟩
  unfold findBest
  split
  · split
    · exact scanCands_good data byte_count W L i _ _ hinit
    · exact hinit
  · exact hinit

end LZLemmas

/-- Per-token invariant checker: length and offset bounded by the parameters,
offset zero exactly when length is zero, literal exactly 8 bits. -/
def tokOK (W L : Nat) (t : Nat × Nat × List Bool) : Bool :=
  decide (t.2.1 ≤ L) && decide (t.1 ≤ W) && (decide (t.1 = 0) == decide (t.2.1 = 0))
    && decide (t.2.2.length = 8)

/-- Total input advance of a token list: each token covers `length + 1` bytes. -/
def tokSum (ts : List (Nat × Nat × List Bool)) : Nat :=
  (ts.map (fun t => t.2.1 + 1)).sum

/-- Walking the tokens from byte cursor `i`: every matched run (destination
bytes `i .. i+length-1`) ends strictly before the final byte `byte_count - 1`. -/
def posOK (byte_count : Nat) : Nat → List (Nat × Nat × List Bool) → Bool
  | _, [] => true
  | i, t :: ts => decide (i + t.2.1 ≤ byte_count - 1) && posOK byte_count (i + t.2.1 + 1) ts

/-- The literal of the last emitted token, if any. -/
def lastLit (ts : List (Nat × Nat × List Bool)) : Option (List Bool) :=
  ts.getLast?.map (fun t => t.2.2)

theorem byteAt_length (data : List Bool) (k : Nat) (h : (k + 1) * 8 ≤ data.length) :
    (byteAt data k).length = 8 := by
  unfold byteAt pySlice
  rw [List.length_take, List.length_drop]
  omega

theorem hlzLoop_nil (data : List Bool) (W L K byte_count : Nat) (fuel i : Nat)
    (ht : HashTable) (h : ¬ i < byte_count) :
    hlzLoop data W L K byte_count fuel i ht = [] := by
  cases fuel <;> simp [hlzLoop, h]

theorem lastLit_cons (t : Nat × Nat × List Bool) (ts : List (Nat × Nat × List Bool))
    (h : ts ≠ []) : lastLit (t :: ts) = lastLit ts := by
  cases ts with
  | nil => exact absurd rfl h
  | cons a l => simp [lastLit, List.getLast?_cons_cons]

theorem hlzLoop_invariant (data : List Bool) (W L K byte_count : Nat)
    (hdata : byte_count * 8 ≤ data.length) :
    ∀ (fuel i : Nat) (ht : HashTable), byte_count ≤ fuel + i →
      tokSum (hlzLoop data W L K byte_count fuel i ht) = byte_count - i
      ∧ (hlzLoop data W L K byte_count fuel i ht).all (tokOK W L) = true
      ∧ posOK byte_count i (hlzLoop data W L K byte_count fuel i ht) = true
      ∧ (i < byte_count →
          lastLit (hlzLoop data W L K byte_count fuel i ht)
            = some (byteAt data (byte_count - 1))) := by
  intro fuel
  induction fuel with
  | zero =>
      intro i ht hfi
      refine ⟨?_, rfl, rfl, ?_⟩
      · show tokSum [] = byte_count - i
        simp [tokSum]; omega
      · intro h; omega
  | succ f ih =>
      intro i ht hfi
      by_cases hi : i < byte_count
      · have hstep : hlzLoop data W L K byte_count (f + 1) i ht
            = ((findBest data byte_count W L K i ht).1,
               (findBest data byte_count W L K i ht).2,
               byteAt data (i + (findBest data byte_count W L K i ht).2))
              :: hlzLoop data W L K byte_count f
                  (i + (findBest data byte_count W L K i ht).2 + 1)
                  (registerAll data byte_count K i ht) := by
          simp [hlzLoop, hi]
        obtain ⟨hgl, hgiff, hgw, hgtail⟩ := findBest_good data byte_count W L K i ht
        set bo := (findBest data byte_count W L K i ht).1 with hbo
        set bl := (findBest data byte_count W L K i ht).2 with hbl
        have hble : i + bl ≤ byte_count - 1 := by
          rcases hgtail with h0 | h0
          · omega
          · exact h0
        obtain ⟨ih1, ih2, ih3, ih4⟩ :=
          ih (i + bl + 1) (registerAll data byte_count K i ht) (by omega)
        refine ⟨?_, ?_, ?_, ?_⟩
        · rw [hstep]
          show bl + 1 + tokSum (hlzLoop data W L K byte_count f (i + bl + 1) _)
            = byte_count - i
          rw [ih1]; omega
        · rw [hstep, List.all_cons, ih2, Bool.and_true]
          unfold tokOK
          have hlen8 : (byteAt data (i + bl)).length = 8 := by
            refine byteAt_length data (i + bl) ?_
            have h9 : i + bl + 1 ≤ byte_count := by omega
            exact le_trans (Nat.mul_le_mul_right 8 h9) hdata
          simp only [hlen8]
          by_cases h1 : bo = 0 <;> by_cases h2 : bl = 0 <;>
            simp [h1, h2, hgl, hgw] <;> omega
        · rw [hstep]
          show (decide (i + bl ≤ byte_count - 1)
            && posOK byte_count (i + bl + 1) (hlzLoop data W L K byte_count f _ _)) = true
          rw [ih3, decide_eq_true hble]; rfl
        · intro _
          rw [hstep]
          by_cases hnext : i + bl + 1 < byte_count
          · have hlast := ih4 hnext
            have hne : hlzLoop data W L K byte_count f (i + bl + 1)
                (registerAll data byte_count K i ht) ≠ [] := by
              intro hemp
              rw [hemp] at hlast
              simp [lastLit] at hlast
            rw [lastLit_cons _ _ hne, hlast]
          · have hend : i + bl = byte_count - 1 := by omega
            have hrest : hlzLoop data W L K byte_count f (i + bl + 1)
                (registerAll data byte_count K i ht) = [] :=
              hlzLoop_nil _ _ _ _ _ _ _ _ (by omega)
            rw [hrest, hend]
            rfl
      · rw [hlzLoop_nil _ _ _ _ _ _ _ _ hi]
        refine ⟨?_, rfl, rfl, fun h => absurd h hi⟩
        simp [tokSum]; omega

/-- C3: for a byte-aligned nonempty buffer, the last emitted token's literal is
the buffer's true last byte, and every matched run ends strictly before the
final byte position (the final byte is always reserved as a literal). -/
theorem lz_tail_literal (data : List Bool) (W L K : Nat)
    (h8 : 8 ∣ data.length) (hbc : 1 ≤ data.length / 8) :
    hashed_lempel_ziv data W L K ≠ []
    ∧ lastLit (hashed_lempel_ziv data W L K)
        = some (byteAt data (data.length / 8 - 1))
    ∧ posOK (data.length / 8) 0 (hashed_lempel_ziv data W L K) = true := by
  have hdata : (data.length / 8) * 8 ≤ data.length := Nat.div_mul_le_self _ _
  obtain ⟨h1, h2, h3, h4⟩ := hlzLoop_invariant data W L K (data.length / 8) hdata
    (data.length / 8) 0 [] (by omega)
  unfold hashed_lempel_ziv
  have hlast := h4 hbc
  refine ⟨?_, hlast, h3⟩
  intro hemp
  rw [hemp] at hlast
  simp [lastLit] at hlast

/-- C3 witness on `b"AAA"` (repetitive tail): the last token's literal is the
last byte and all matched runs end before it. -/
theorem lz_tail_literal_witness :
    hashed_lempel_ziv (byteA ++ byteA ++ byteA) 2 3 1 ≠ []
    ∧ lastLit (hashed_lempel_ziv (byteA ++ byteA ++ byteA) 2 3 1)
        = some (byteAt (byteA ++ byteA ++ byteA) 2)
    ∧ posOK 3 0 (hashed_lempel_ziv (byteA ++ byteA ++ byteA) 2 3 1) = true :=
  lz_tail_literal (byteA ++ byteA ++ byteA) 2 3 1 (by decide) (by decide)

/-- C10: every emitted token has `length ≤ match_length`,
`offset ≤ search_length`, `offset = 0` iff `length = 0`, an exactly 8-bit
literal; and the token lengths tile exactly the whole bytes of the input
(`sum (length + 1) = len(data) // 8`). -/
theorem lz_token_invariants (data : List Bool) (W L K : Nat)
    (hW : 1 ≤ W) (hK : 1 ≤ K) :
    (hashed_lempel_ziv data W L K).all (tokOK W L) = true
    ∧ tokSum (hashed_lempel_ziv data W L K) = data.length / 8 := by
  have hdata : (data.length / 8) * 8 ≤ data.length := Nat.div_mul_le_self _ _
  obtain ⟨h1, h2, h3, h4⟩ := hlzLoop_invariant data W L K (data.length / 8) hdata
    (data.length / 8) 0 [] (by omega)
  unfold hashed_lempel_ziv
  exact ⟨h2, by rw [h1]; omega⟩

/-- C10 witness on `b"AAAAA"`. -/
theorem lz_token_invariants_witness :
    (hashed_lempel_ziv (byteA ++ byteA ++ byteA ++ byteA ++ byteA) 3 3 1).all (tokOK 3 3)
      = true
    ∧ tokSum (hashed_lempel_ziv (byteA ++ byteA ++ byteA ++ byteA ++ byteA) 3 3 1) = 5 :=
  lz_token_invariants (byteA ++ byteA ++ byteA ++ byteA ++ byteA) 3 3 1
    (by decide) (by decide)

/-- Candidates that lie in the window `max(0, i - W) ≤ j < i`. -/
def validCands (W i : Nat) (cands : List Nat) : List Nat :=
  cands.filter (fun j => decide (i - W ≤ j) && decide (j < i))

/-- Greatest run length over the windowed candidates (0 when none). -/
def maxRun (data : List Bool) (byte_count W L i : Nat) (cands : List Nat) : Nat :=
  ((validCands W i cands).map (fun j => runLen data byte_count j i L)).foldr max 0

/-- Earliest windowed candidate (ascending insertion order) attaining the
greatest run length. -/
def firstArgmax (data : List Bool) (byte_count W L i : Nat) (cands : List Nat) : Option Nat :=
  (validCands W i cands).find?
    (fun j => decide (runLen data byte_count j i L = maxRun data byte_count W L i cands))

/-- Modelled from the spec's words (§4.2 step 3): keep the candidate with the
strictly greatest run length, ties to the earliest-registered candidate; the
selected candidate yields `(i - j, run length)`; absent any candidate (or when
every run length is 0, since only strictly greater lengths replace the initial
0), both are 0. -/
def specSelect (data : List Bool) (byte_count W L i : Nat) (cands : List Nat) : Nat × Nat :=
  if maxRun data byte_count W L i cands = 0 then (0, 0)
  else
    match firstArgmax data byte_count W L i cands with
    | some j => (i - j, maxRun data byte_count W L i cands)
    | none => (0, 0)

theorem foldr_max_attained (l : List Nat) : l.foldr max 0 = 0 ∨ l.foldr max 0 ∈ l := by
  induction l with
  | nil => exact Or.inl rfl
  | cons a t ih =>
      rw [List.foldr_cons]
      rcases max_choice a (t.foldr max 0) with h | h
      · rw [h]; right; exact List.mem_cons_self a t
      · rw [h]
        rcases ih with h0 | hm
        · rw [h0]; rw [h0] at h
          have : a ≤ 0 := by
            have := le_max_left a (t.foldr max 0)
            omega
          left; omega
        · right; exact List.mem_cons_of_mem a hm

theorem scanCands_gen (data : List Bool) (byte_count W L i : Nat) :
    ∀ (cands : List Nat) (bo bl : Nat),
    scanCands data byte_count W L i cands (bo, bl) =
      if bl < maxRun data byte_count W L i cands then
        (firstArgmax data byte_count W L i cands).elim (bo, bl)
          (fun j => (i - j, maxRun data byte_count W L i cands))
      else (bo, bl) := by
  intro cands
  induction cands with
  | nil =>
      intro bo bl
      simp [scanCands, maxRun, validCands, firstArgmax]
  | cons j js ih =>
      intro bo bl
      by_cases hg : i - W ≤ j ∧ j < i
      · have hp : (fun j => decide (i - W ≤ j) && decide (j < i)) j = true := by
          simp [hg.1, hg.2]
        have hval : validCands W i (j :: js) = j :: validCands W i js := by
          unfold validCands
          rw [List.filter_cons]
          simp [hg.1, hg.2]
        have hM : maxRun data byte_count W L i (j :: js)
            = max (runLen data byte_count j i L) (maxRun data byte_count W L i js) := by
          unfold maxRun
          rw [hval, List.map_cons, List.foldr_cons]
        have hstep : scanCands data byte_count W L i (j :: js) (bo, bl)
            = if bl < runLen data byte_count j i L then
                scanCands data byte_count W L i js (i - j, runLen data byte_count j i L)
              else scanCands data byte_count W L i js (bo, bl) := by
          show (if i - W ≤ j ∧ j < i then _ else _) = _
          rw [if_pos hg]
        set ℓ := runLen data byte_count j i L with hℓ
        set M' := maxRun data byte_count W L i js with hM'
        rw [hstep]
        by_cases h1 : bl < ℓ
        · rw [if_pos h1, ih]
          by_cases h2 : ℓ < M'
          · have hmax : max ℓ M' = M' := max_eq_right (le_of_lt h2)
            have hM0 : M' ≠ 0 := by omega
            have hfa : firstArgmax data byte_count W L i (j :: js)
                = firstArgmax data byte_count W L i js := by
              unfold firstArgmax
              rw [hval, hM, hmax]
              refine List.find?_cons_of_neg _ ?_
              simp only [decide_eq_true_eq]
              omega
            have hattain := foldr_max_attained
              ((validCands W i js).map (fun j => runLen data byte_count j i L))
            rcases hattain with h0 | hmem
            · exact absurd h0 hM0
            · obtain ⟨j₁, hj₁mem, hj₁eq⟩ := List.mem_map.mp hmem
              have hsome : (firstArgmax data byte_count W L i js).isSome := by
                unfold firstArgmax
                rw [List.find?_isSome]
                refine ⟨j₁, hj₁mem, ?_⟩
                simp only [decide_eq_true_eq]
                rw [hj₁eq]
                rfl
              obtain ⟨j₂, hj₂⟩ := Option.isSome_iff_exists.mp hsome
              rw [hM, hmax, hfa, hj₂]
              simp [h2, show bl < M' by omega]
          · have hle : M' ≤ ℓ := by omega
            have hmax : max ℓ M' = ℓ := max_eq_left hle
            have hfa : firstArgmax data byte_count W L i (j :: js) = some j := by
              unfold firstArgmax
              rw [hval, hM, hmax]
              refine List.find?_cons_of_pos _ ?_
              simp
            rw [hM, hmax, hfa]
            simp [h1, h2]
        · rw [if_neg h1, ih]
          have hℓbl : ℓ ≤ bl := by omega
          by_cases h2 : bl < M'
          · have hmax : max ℓ M' = M' := max_eq_right (by omega)
            have hM0 : M' ≠ 0 := by omega
            have hfa : firstArgmax data byte_count W L i (j :: js)
                = firstArgmax data byte_count W L i js := by
              unfold firstArgmax
              rw [hval, hM, hmax]
              refine List.find?_cons_of_neg _ ?_
              simp only [decide_eq_true_eq]
              omega
            have hattain := foldr_max_attained
              ((validCands W i js).map (fun j => runLen data byte_count j i L))
            rcases hattain with h0 | hmem
            · exact absurd h0 hM0
            · obtain ⟨j₁, hj₁mem, hj₁eq⟩ := List.mem_map.mp hmem
              have hsome : (firstArgmax data byte_count W L i js).isSome := by
                unfold firstArgmax
                rw [List.find?_isSome]
                refine ⟨j₁, hj₁mem, ?_⟩
                simp only [decide_eq_true_eq]
                rw [hj₁eq]
                rfl
              obtain ⟨j₂, hj₂⟩ := Option.isSome_iff_exists.mp hsome
              rw [hM, hmax, hfa, hj₂]
          · have hmax : ¬ bl < max ℓ M' := by
              rcases max_choice ℓ M' with h | h <;> rw [h] <;> omega
            rw [hM, if_neg hmax, if_neg h2]
      · have hp : (decide (i - W ≤ j) && decide (j < i)) = false := by
          rcases Decidable.not_and_iff_or_not.mp hg with h | h
          · rw [decide_eq_false h, Bool.false_and]
          · rw [decide_eq_false h, Bool.and_false]
        have hval : validCands W i (j :: js) = validCands W i js := by
          unfold validCands
          rw [List.filter_cons, hp]
          simp only [Bool.false_eq_true, if_false]
        have hMeq : maxRun data byte_count W L i (j :: js)
            = maxRun data byte_count W L i js := by
          unfold maxRun
          rw [hval]
        have hFeq : firstArgmax data byte_count W L i (j :: js)
            = firstArgmax data byte_count W L i js := by
          unfold firstArgmax
          rw [hval, hMeq]
        have hstep : scanCands data byte_count W L i (j :: js) (bo, bl)
            = scanCands data byte_count W L i js (bo, bl) := by
          show (if i - W ≤ j ∧ j < i then _ else _) = _
          rw [if_neg hg]
        rw [hstep, ih, hMeq, hFeq]

/-- C6: at every step the selected match is exactly the spec's selection rule —
greatest run length among the windowed registered candidates scanned in
ascending insertion order, strictly-greater replacement so ties go to the
earliest-registered candidate, `(i - j, length)` for the winner and `(0, 0)`
when no candidate (or no positive run) exists. -/
theorem lz_best_match_selection :
    (∀ (data : List Bool) (byte_count W L i : Nat) (cands : List Nat),
      scanCands data byte_count W L i cands (0, 0)
        = specSelect data byte_count W L i cands)
    ∧ (∀ (data : List Bool) (byte_count W L K i : Nat) (ht : HashTable),
      findBest data byte_count W L K i ht
        = if i + K ≤ byte_count then
            specSelect data byte_count W L i ((List.lookup (gramAt data K i) ht).getD [])
          else (0, 0)) := by
  have hmain : ∀ (data : List Bool) (byte_count W L i : Nat) (cands : List Nat),
      scanCands data byte_count W L i cands (0, 0)
        = specSelect data byte_count W L i cands := by
    intro data byte_count W L i cands
    rw [scanCands_gen]
    unfold specSelect
    by_cases hM : maxRun data byte_count W L i cands = 0
    · rw [if_pos hM, hM]
      simp
    · rw [if_neg hM, if_pos (Nat.pos_of_ne_zero hM)]
      cases hfa : firstArgmax data byte_count W L i cands <;> simp [hfa]
  refine ⟨hmain, ?_⟩
  intro data byte_count W L K i ht
  unfold findBest
  split
  · cases hlk : List.lookup (gramAt data K i) ht with
    | none =>
        show (0, 0) = specSelect data byte_count W L i []
        unfold specSelect
        rw [show maxRun data byte_count W L i [] = 0 from rfl]
        simp
    | some cands =>
        show scanCands data byte_count W L i cands (0, 0)
          = specSelect data byte_count W L i ((some cands).getD [])
        exact hmain data byte_count W L i cands
  · rfl

/-! ## `huffman_coding.py` -/

def LENGTH_FIELD_BITS : Nat := 17
def TREE_SIZE_FIELD_BITS : Nat := 16
def SYMBOL_BITS_FIELD : Nat := 6

/-- `HuffmanNode`: every node the source constructs is either a leaf carrying a
symbol (and a frequency) or an internal node with both children; deserialized
nodes carry frequency 0 (the Python default). -/
inductive HuffmanNode where
  | leaf (symbol : Nat) (frequency : Nat)
  | internal (frequency : Nat) (left right : HuffmanNode)
deriving DecidableEq

instance : Inhabited HuffmanNode := ⟨.leaf 0 0⟩

def HuffmanNode.frequency : HuffmanNode → Nat
  | .leaf _ f => f
  | .internal f _ _ => f

/-- `HuffmanNode.__lt__`: frequency comparison only. -/
def hlt (a b : HuffmanNode) : Bool := decide (a.frequency < b.frequency)

/-- Python list indexing (in-range in every use below). -/
def lget (l : List HuffmanNode) (i : Nat) : HuffmanNode := l.getD i default

/-- `heapq._siftdown(heap, startpos, pos)` with `newitem = heap[pos]` passed
explicitly; fuel `pos + 1` is always enough since `pos` strictly decreases. -/
def siftdownLoop : Nat → List HuffmanNode → Nat → Nat → HuffmanNode → List HuffmanNode
  | 0, heap, _, pos, newitem => heap.set pos newitem
  | fuel + 1, heap, startpos, pos, newitem =>
    if startpos < pos then
      let parentpos := (pos - 1) / 2
      let parent := lget heap parentpos
      if hlt newitem parent then
        siftdownLoop fuel (heap.set pos parent) startpos parentpos newitem
      else heap.set pos newitem
    else heap.set pos newitem

def siftdown (heap : List HuffmanNode) (startpos pos : Nat) : List HuffmanNode :=
  siftdownLoop (pos + 1) heap startpos pos (lget heap pos)

/-- The `while childpos < endpos` loop of `heapq._siftup`; fuel `endpos` is
always enough since `pos` strictly increases below `endpos`. -/
def siftupLoop : Nat → List HuffmanNode → Nat → Nat → Nat → HuffmanNode → List HuffmanNode
  | 0, heap, startpos, pos, _, newitem => siftdown (heap.set pos newitem) startpos pos
  | fuel + 1, heap, startpos, pos, endpos, newitem =>
    let childpos := 2 * pos + 1
    if childpos < endpos then
      let rightpos := childpos + 1
      let childpos :=
        if rightpos < endpos ∧ hlt (lget heap childpos) (lget heap rightpos) = false then
          rightpos
        else childpos
      siftupLoop fuel (heap.set pos (lget heap childpos)) startpos childpos endpos newitem
    else siftdown (heap.set pos newitem) startpos pos

/-- `heapq.heappush`. -/
def heappush (heap : List HuffmanNode) (item : HuffmanNode) : List HuffmanNode :=
  siftdown (heap ++ [item]) 0 heap.length

/-- `heapq.heappop` (`none` models `IndexError` on an empty heap). -/
def heappop (heap : List HuffmanNode) : Option (HuffmanNode × List HuffmanNode) :=
  match heap.getLast? with
  | none => none
  | some lastelt =>
    let rest := heap.dropLast
    if rest.isEmpty then some (lastelt, rest)
    else
      let returnitem := lget rest 0
      let h2 := rest.set 0 lastelt
      some (returnitem, siftupLoop h2.length h2 0 0 h2.length lastelt)

/-- The `while len(heap) > 1` merge loop of `build_huffman_tree`; fuel
`len(heap)` is enough (each iteration shrinks the heap by one). -/
def buildLoop : Nat → List HuffmanNode → List HuffmanNode
  | 0, heap => heap
  | fuel + 1, heap =>
    if 1 < heap.length then
      match heappop heap with
      | some (left, h1) =>
        match heappop h1 with
        | some (right, h2) =>
          buildLoop fuel
            (heappush h2 (.internal (left.frequency + right.frequency) left right))
        | none => h1
      | none => heap
    else heap

/-- `build_huffman_tree(frequency_table)`; the table is a list in Python dict
(first-insertion) order; `none` models the `IndexError` of `heap[0]` on an
empty table. -/
def build_huffman_tree (frequency_table : List (Nat × Nat)) : Option HuffmanNode :=
  let heap := frequency_table.foldl (fun h sf => heappush h (.leaf sf.1 sf.2)) []
  (buildLoop heap.length heap).head?

/-- `Counter` update: bump the count of `v`, preserving first-insertion order. -/
def bump : List (Nat × Nat) → Nat → List (Nat × Nat)
  | [], v => [(v, 1)]
  | (k, c) :: t, v => if k = v then (k, c + 1) :: t else (k, c) :: bump t v

/-- `for i in range(0, len(data), symbol_bits)` slicing: the chunk list (final
chunk may be shorter).  `symbol_bits = 0` (where Python `range` raises) gives
`[]`. -/
def chunksOfAux (sb : Nat) : Nat → List Bool → List (List Bool)
  | 0, _ => []
  | fuel + 1, data =>
    if data.isEmpty then [] else data.take sb :: chunksOfAux sb fuel (data.drop sb)

def chunksOf (sb : Nat) (data : List Bool) : List (List Bool) :=
  if sb = 0 then [] else chunksOfAux sb data.length data

/-- `build_frequency_table(data, symbol_bits)`. -/
def build_frequency_table (data : List Bool) (symbol_bits : Nat) : List (Nat × Nat) :=
  if data.isEmpty then []
  else ((chunksOf symbol_bits data).map bitsToNat).foldl bump []

/-- The assignments performed by `generate_huffman_codes`'s `traverse`, in
traversal order (left `0`, right `1`; an empty path becomes `"0"`). -/
def genList : HuffmanNode → List Bool → List (Nat × List Bool)
  | .leaf s _, code => [(s, if code.isEmpty then [false] else code)]
  | .internal _ l r, code => genList l (code ++ [false]) ++ genList r (code ++ [true])

/-- Python dict assignment `d[k] = v` (overwrite-in-place). -/
def dinsert : List (Nat × List Bool) → Nat → List Bool → List (Nat × List Bool)
  | [], k, v => [(k, v)]
  | (k', v') :: t, k, v => if k' = k then (k', v) :: t else (k', v') :: dinsert t k v

/-- `generate_huffman_codes(root)`: the code dictionary. -/
def generate_huffman_codes (root : HuffmanNode) : List (Nat × List Bool) :=
  (genList root []).foldl (fun d e => dinsert d e.1 e.2) []

/-- `serialize_node`: preorder, leaf = `1` + symbol bits, internal = `0`. -/
def serNode (symbol_bits : Nat) : HuffmanNode → List Bool
  | .leaf s _ => true :: padded s symbol_bits
  | .internal _ l r => false :: (serNode symbol_bits l ++ serNode symbol_bits r)

/-- `serialize_tree(root, symbol_bits)`. -/
def serialize_tree (root : Option HuffmanNode) (symbol_bits : Nat) : List Bool :=
  match root with
  | none => []
  | some r => serNode symbol_bits r

/-- `deserialize_node(pos)`; fuel `len(data) + 1` is always enough since `pos`
strictly increases before each read.  `none` models the Python exceptions on
malformed data (out-of-range index / `int('', 2)`). -/
def dnodeAux (data : List Bool) (symbol_bits : Nat) : Nat → Nat → Option (HuffmanNode × Nat)
  | 0, _ => none
  | fuel + 1, pos =>
    match data[pos]? with
    | none => none
    | some true =>
        let symbol_chunk := pySlice data (pos + 1) (pos + 1 + symbol_bits)
        if symbol_chunk.isEmpty then none
        else some (.leaf (bitsToNat symbol_chunk) 0, pos + 1 + symbol_bits)
    | some false =>
        match dnodeAux data symbol_bits fuel (pos + 1) with
        | none => none
        | some (left_node, new_pos) =>
          match dnodeAux data symbol_bits fuel new_pos with
          | none => none
          | some (right_node, final_pos) =>
            some (.internal 0 left_node right_node, final_pos)

/-- `deserialize_tree(data, symbol_bits)`. -/
def deserialize_tree (data : List Bool) (symbol_bits : Nat) :
    Option HuffmanNode × Nat :=
  if data.isEmpty then (none, 0)
  else
    match dnodeAux data symbol_bits (data.length + 1) 0 with
    | some (root, consumed) => (some root, consumed)
    | none => (none, 0)

/-- `huffman_encode(data, symbol_bits)`; the only `raise` is the tree-size
check. -/
def huffman_encode (data : List Bool) (symbol_bits : Nat) : Except String (List Bool) :=
  if data.isEmpty then .ok []
  else
    let freq_table := build_frequency_table data symbol_bits
    match build_huffman_tree freq_table with
    | none => .error "IndexError"
    | some tree_root =>
      let codes := generate_huffman_codes tree_root
      let serialized_tree := serialize_tree (some tree_root) symbol_bits
      let tree_size := serialized_tree.length
      if 2 ^ TREE_SIZE_FIELD_BITS ≤ tree_size then .error "Tree too large"
      else
        .ok (padded symbol_bits SYMBOL_BITS_FIELD
          ++ padded tree_size TREE_SIZE_FIELD_BITS
          ++ serialized_tree
          ++ padded (data.length / 8) LENGTH_FIELD_BITS
          ++ ((chunksOf symbol_bits data).map (fun chunk =>
                match List.lookup (bitsToNat chunk) codes with
                | some c => c
                | none => [])).flatten)

/-- One traversal move of the decode walk (`left` on 0, `right` on 1, stay on
a leaf). -/
def stepNode : HuffmanNode → Bool → HuffmanNode
  | .internal _ l _, false => l
  | .internal _ _ r, true => r
  | n, _ => n

/-- The `for bit in encoded_data` walk of `huffman_decode`, with the early
`break` once enough bits were produced. -/
def walk (root : HuffmanNode) (symbol_bits original_length_bits : Nat) :
    HuffmanNode → List Bool → List Bool → List Bool
  | _, [], result => result
  | cur, bit :: restBits, result =>
    match stepNode cur bit with
    | .leaf s _ =>
        let result' := result ++ padded s symbol_bits
        if original_length_bits ≤ result'.length then result'
        else walk root symbol_bits original_length_bits root restBits result'
    | .internal f l r =>
        walk root symbol_bits original_length_bits (.internal f l r) restBits result

/-- `huffman_decode(compressed_data)`. -/
def huffman_decode (compressed_data : List Bool) : List Bool :=
  if compressed_data.isEmpty then []
  else
    let symbol_bits := bitsToNat (pySlice compressed_data 0 SYMBOL_BITS_FIELD)
    let tree_size := bitsToNat (pySlice compressed_data SYMBOL_BITS_FIELD
      (SYMBOL_BITS_FIELD + TREE_SIZE_FIELD_BITS))
    let tree_start := SYMBOL_BITS_FIELD + TREE_SIZE_FIELD_BITS
    let tree_end := tree_start + tree_size
    let tree_data := pySlice compressed_data tree_start tree_end
    let tree_root := (deserialize_tree tree_data symbol_bits).1
    let original_length_bytes := bitsToNat (pySlice compressed_data tree_end
      (tree_end + LENGTH_FIELD_BITS))
    let original_length_bits := original_length_bytes * 8
    let encoded_data := compressed_data.drop (tree_end + LENGTH_FIELD_BITS)
    match tree_root with
    | none => []
    | some root =>
        (walk root symbol_bits original_length_bits root encoded_data []).take
          original_length_bits

section HeapLemmas

theorem lget_set_self : ∀ (l : List HuffmanNode) (i : Nat) (v : HuffmanNode),
    i < l.length → lget (l.set i v) i = v := by
  intro l
  induction l with
  | nil => intro i v h; simp at h
  | cons a t ih =>
      intro i v h
      cases i with
      | zero => rfl
      | succ n =>
          show lget (a :: t.set n v) (n + 1) = v
          show lget (t.set n v) n = v
          exact ih n v (by simpa using h)

theorem lget_set_ne : ∀ (l : List HuffmanNode) (i j : Nat) (v : HuffmanNode),
    i ≠ j → lget (l.set i v) j = lget l j := by
  intro l
  induction l with
  | nil => intro i j v _; cases i <;> rfl
  | cons a t ih =>
      intro i j v hij
      cases i with
      | zero =>
          cases j with
          | zero => exact absurd rfl hij
          | succ m => rfl
      | succ n =>
          cases j with
          | zero => rfl
          | succ m =>
              show lget (t.set n v) m = lget t m
              exact ih n m v (by omega)

theorem length_set_node (l : List HuffmanNode) (i : Nat) (v : HuffmanNode) :
    (l.set i v).length = l.length := List.length_set l i v

theorem set_ms : ∀ (l : List HuffmanNode) (i : Nat) (v : HuffmanNode), i < l.length →
    (↑(l.set i v) : Multiset HuffmanNode) + {lget l i} = ↑l + {v} := by
  intro l
  induction l with
  | nil => intro i v h; simp at h
  | cons a t ih =>
      intro i v h
      cases i with
      | zero =>
          show (↑(v :: t) : Multiset HuffmanNode) + {a} = ↑(a :: t) + {v}
          rw [← Multiset.cons_coe, ← Multiset.cons_coe]
          rw [← Multiset.singleton_add, ← Multiset.singleton_add]
          abel
      | succ n =>
          show (↑(a :: t.set n v) : Multiset HuffmanNode) + {lget t n} = ↑(a :: t) + {v}
          rw [← Multiset.cons_coe, ← Multiset.cons_coe]
          rw [← Multiset.singleton_add, ← Multiset.singleton_add]
          have := ih n v (by simpa using h)
          rw [add_assoc, add_assoc, this]

theorem siftdownLoop_length : ∀ (fuel : Nat) (heap : List HuffmanNode)
    (s p : Nat) (x : HuffmanNode),
    (siftdownLoop fuel heap s p x).length = heap.length := by
  intro fuel
  induction fuel with
  | zero => intro heap s p x; exact List.length_set heap p x
  | succ f ih =>
      intro heap s p x
      unfold siftdownLoop
      dsimp only
      split
      · split
        · rw [ih, List.length_set]
        · exact List.length_set heap p x
      · exact List.length_set heap p x

theorem siftdownLoop_ms : ∀ (fuel : Nat) (heap : List HuffmanNode)
    (s p : Nat) (x : HuffmanNode), p < heap.length →
    (↑(siftdownLoop fuel heap s p x) : Multiset HuffmanNode) + {lget heap p}
      = ↑heap + {x} := by
  intro fuel
  induction fuel with
  | zero => intro heap s p x h; exact set_ms heap p x h
  | succ f ih =>
      intro heap s p x h
      unfold siftdownLoop
      dsimp only
      split
      · next hsp =>
          split
          · next hcmp =>
              have hpp : (p - 1) / 2 < p := by omega
              have hrec := ih (heap.set p (lget heap ((p - 1) / 2))) s ((p - 1) / 2) x
                (by rw [List.length_set]; omega)
              rw [lget_set_ne heap p ((p - 1) / 2) _ (by omega)] at hrec
              have hset := set_ms heap p (lget heap ((p - 1) / 2)) h
              set LHS := (↑(siftdownLoop f (heap.set p (lget heap ((p - 1) / 2))) s
                ((p - 1) / 2) x) : Multiset HuffmanNode) with hLHS
              have key : (LHS + {lget heap p}) + {lget heap ((p - 1) / 2)}
                  = ((↑heap : Multiset HuffmanNode) + {x}) + {lget heap ((p - 1) / 2)} := by
                calc (LHS + {lget heap p}) + {lget heap ((p - 1) / 2)}
                    = (LHS + {lget heap ((p - 1) / 2)}) + {lget heap p} := by abel
                  _ = (↑(heap.set p (lget heap ((p - 1) / 2))) + {x}) + {lget heap p} := by
                      rw [hrec]
                  _ = (↑(heap.set p (lget heap ((p - 1) / 2))) + {lget heap p}) + {x} := by
                      abel
                  _ = ((↑heap : Multiset HuffmanNode) + {lget heap ((p - 1) / 2)}) + {x} := by
                      rw [hset]
                  _ = ((↑heap : Multiset HuffmanNode) + {x}) + {lget heap ((p - 1) / 2)} := by
                      abel
              exact add_right_cancel key
          · exact set_ms heap p x h
      · exact set_ms heap p x h

end HeapLemmas

section HeapLemmas2

theorem siftdown_length (heap : List HuffmanNode) (s p : Nat) :
    (siftdown heap s p).length = heap.length := siftdownLoop_length _ _ _ _ _

theorem siftdown_ms (heap : List HuffmanNode) (s p : Nat) (h : p < heap.length) :
    (↑(siftdown heap s p) : Multiset HuffmanNode) = ↑heap := by
  have := siftdownLoop_ms (p + 1) heap s p (lget heap p) h
  exact add_right_cancel this

theorem heappush_length (heap : List HuffmanNode) (item : HuffmanNode) :
    (heappush heap item).length = heap.length + 1 := by
  unfold heappush
  rw [siftdown_length, List.length_append, List.length_cons, List.length_nil]

theorem heappush_ms (heap : List HuffmanNode) (item : HuffmanNode) :
    (↑(heappush heap item) : Multiset HuffmanNode) = ↑heap + {item} := by
  unfold heappush
  rw [siftdown_ms _ _ _ (by rw [List.length_append]; simp)]
  rw [← Multiset.coe_add (α := HuffmanNode)]
  rfl

theorem siftupLoop_length : ∀ (fuel : Nat) (heap : List HuffmanNode)
    (s p e : Nat) (x : HuffmanNode),
    (siftupLoop fuel heap s p e x).length = heap.length := by
  intro fuel
  induction fuel with
  | zero =>
      intro heap s p e x
      show (siftdown (heap.set p x) s p).length = _
      rw [siftdown_length, List.length_set]
  | succ f ih =>
      intro heap s p e x
      unfold siftupLoop
      dsimp only
      split
      · rw [ih, List.length_set]
      · rw [siftdown_length, List.length_set]

theorem siftupLoop_ms : ∀ (fuel : Nat) (heap : List HuffmanNode)
    (s p e : Nat) (x : HuffmanNode), p < heap.length → e = heap.length →
    (↑(siftupLoop fuel heap s p e x) : Multiset HuffmanNode) + {lget heap p}
      = ↑heap + {x} := by
  intro fuel
  induction fuel with
  | zero =>
      intro heap s p e x hp _
      show (↑(siftdown (heap.set p x) s p) : Multiset HuffmanNode) + {lget heap p} = _
      rw [siftdown_ms _ _ _ (by rw [List.length_set]; exact hp)]
      exact set_ms heap p x hp
  | succ f ih =>
      intro heap s p e x hp he
      unfold siftupLoop
      dsimp only
      split
      · next hchild =>
          set cp := if 2 * p + 1 + 1 < e ∧ hlt (lget heap (2 * p + 1)) (lget heap (2 * p + 1 + 1)) = false
            then 2 * p + 1 + 1 else 2 * p + 1 with hcp
          have hcpe : cp < e := by
            rw [hcp]
            split
            · next hc => omega
            · exact hchild
          have hcpp : p ≠ cp := by
            rw [hcp]
            split <;> omega
          have hrec := ih (heap.set p (lget heap cp)) s cp e x
            (by rw [List.length_set]; omega) (by rw [List.length_set]; exact he)
          rw [lget_set_ne heap p cp _ hcpp] at hrec
          have hset := set_ms heap p (lget heap cp) hp
          set LHS := (↑(siftupLoop f (heap.set p (lget heap cp)) s cp e x)
            : Multiset HuffmanNode) with hLHS
          have key : (LHS + {lget heap p}) + {lget heap cp}
              = ((↑heap : Multiset HuffmanNode) + {x}) + {lget heap cp} := by
            calc (LHS + {lget heap p}) + {lget heap cp}
                = (LHS + {lget heap cp}) + {lget heap p} := by abel
              _ = (↑(heap.set p (lget heap cp)) + {x}) + {lget heap p} := by rw [hrec]
              _ = (↑(heap.set p (lget heap cp)) + {lget heap p}) + {x} := by abel
              _ = ((↑heap : Multiset HuffmanNode) + {lget heap cp}) + {x} := by rw [hset]
              _ = ((↑heap : Multiset HuffmanNode) + {x}) + {lget heap cp} := by abel
          exact add_right_cancel key
      · rw [siftdown_ms _ _ _ (by rw [List.length_set]; exact hp)]
        exact set_ms heap p x hp

end HeapLemmas2

section HeapLemmas3

theorem getLast?_split (l : List HuffmanNode) (a : HuffmanNode)
    (h : l.getLast? = some a) : l.dropLast ++ [a] = l := by
  have hne : l ≠ [] := by intro he; rw [he] at h; simp at h
  have h2 := List.getLast?_eq_getLast l hne
  rw [h] at h2
  have h3 : a = l.getLast hne := by injection h2
  have h4 := List.dropLast_append_getLast hne
  rw [← h3] at h4
  exact h4

theorem heappop_spec (heap : List HuffmanNode) (x : HuffmanNode)
    (h' : List HuffmanNode) (h : heappop heap = some (x, h')) :
    (↑heap : Multiset HuffmanNode) = ↑h' + {x} ∧ h'.length + 1 = heap.length := by
  unfold heappop at h
  cases hlast : heap.getLast? with
  | none => rw [hlast] at h; exact absurd h (by simp)
  | some lastelt =>
      rw [hlast] at h
      dsimp only at h
      have hsplit := getLast?_split heap lastelt hlast
      have hlen : heap.length = heap.dropLast.length + 1 := by
        conv_lhs => rw [← hsplit]
        rw [List.length_append]
        rfl
      by_cases hre : heap.dropLast.isEmpty
      · rw [if_pos hre] at h
        simp only [Option.some.injEq, Prod.mk.injEq] at h
        obtain ⟨hx, hh'⟩ := h
        subst hx; subst hh'
        constructor
        · conv_lhs => rw [← hsplit]
          rw [← Multiset.coe_add]
          rfl
        · omega
      · rw [if_neg hre] at h
        simp only [Option.some.injEq, Prod.mk.injEq] at h
        obtain ⟨hx, hh'⟩ := h
        have hpos : 0 < heap.dropLast.length := by
          cases hdl : heap.dropLast with
          | nil => rw [hdl] at hre; simp at hre
          | cons a t => simp [hdl]
        set rest := heap.dropLast with hrest
        set h2 := rest.set 0 lastelt with hh2
        have h2len : h2.length = rest.length := List.length_set _ _ _
        have hms := siftupLoop_ms h2.length h2 0 0 h2.length lastelt
          (by omega) rfl
        rw [lget_set_self rest 0 lastelt hpos] at hms
        have hms2 : (↑(siftupLoop h2.length h2 0 0 h2.length lastelt)
            : Multiset HuffmanNode) = ↑h2 := add_right_cancel hms
        have hsetms := set_ms rest 0 lastelt hpos
        constructor
        · subst hx; subst hh'
          calc (↑heap : Multiset HuffmanNode)
              = ↑(rest ++ [lastelt]) := by rw [hsplit]
            _ = ↑rest + {lastelt} := by rw [← Multiset.coe_add]; rfl
            _ = ↑h2 + {lget rest 0} := hsetms.symm
            _ = ↑(siftupLoop h2.length h2 0 0 h2.length lastelt) + {lget rest 0} := by
                rw [hms2]
        · subst hh'
          rw [siftupLoop_length, h2len]
          omega

end HeapLemmas3

/-- Multiset of leaf symbols of a tree. -/
def leafMS : HuffmanNode → Multiset Nat
  | .leaf s _ => {s}
  | .internal _ l r => leafMS l + leafMS r

/-- Multiset of leaf symbols over all heap entries. -/
def heapLeafMS (l : List HuffmanNode) : Multiset Nat :=
  ((↑l : Multiset HuffmanNode).map leafMS).sum

theorem heappop_of_ne_nil (heap : List HuffmanNode) (h : heap ≠ []) :
    ∃ x h', heappop heap = some (x, h') := by
  unfold heappop
  rw [List.getLast?_eq_getLast heap h]
  dsimp only
  split
  · exact ⟨_, _, rfl⟩
  · exact ⟨_, _, rfl⟩

theorem heappush_leafMS (heap : List HuffmanNode) (x : HuffmanNode) :
    heapLeafMS (heappush heap x) = heapLeafMS heap + leafMS x := by
  unfold heapLeafMS
  rw [heappush_ms, Multiset.map_add, Multiset.sum_add]
  simp

theorem heappop_leafMS (heap : List HuffmanNode) (x : HuffmanNode)
    (h' : List HuffmanNode) (h : heappop heap = some (x, h')) :
    heapLeafMS heap = heapLeafMS h' + leafMS x := by
  unfold heapLeafMS
  rw [(heappop_spec heap x h' h).1, Multiset.map_add, Multiset.sum_add]
  simp

theorem buildLoop_spec : ∀ (fuel : Nat) (heap : List HuffmanNode), heap.length ≤ fuel →
    (buildLoop fuel heap).length = min heap.length 1
    ∧ heapLeafMS (buildLoop fuel heap) = heapLeafMS heap := by
  intro fuel
  induction fuel with
  | zero =>
      intro heap hle
      have : heap = [] := List.length_eq_zero.mp (by omega)
      subst this
      exact ⟨rfl, rfl⟩
  | succ f ih =>
      intro heap hle
      show (if 1 < heap.length then _ else heap).length = _
        ∧ heapLeafMS (if 1 < heap.length then _ else heap) = _
      by_cases hlen : 1 < heap.length
      · obtain ⟨left, h1, hp1⟩ := heappop_of_ne_nil heap
          (by intro he; rw [he] at hlen; simp at hlen)
        have spec1 := heappop_spec heap left h1 hp1
        obtain ⟨right, h2, hp2⟩ := heappop_of_ne_nil h1
          (by intro he; rw [he] at spec1; simp at spec1; omega)
        have spec2 := heappop_spec h1 right h2 hp2
        rw [if_pos hlen, hp1]
        dsimp only
        rw [hp2]
        dsimp only
        have hpushlen : (heappush h2
            (.internal (left.frequency + right.frequency) left right)).length ≤ f := by
          rw [heappush_length]; omega
        obtain ⟨ihl, ihm⟩ := ih _ hpushlen
        constructor
        · rw [ihl, heappush_length]
          have : min (h2.length + 1) 1 = 1 := by omega
          rw [this]
          omega
        · rw [ihm, heappush_leafMS, heappop_leafMS heap left h1 hp1,
            heappop_leafMS h1 right h2 hp2]
          show heapLeafMS h2 + (leafMS left + leafMS right)
            = heapLeafMS h2 + leafMS right + leafMS left
          abel
      · rw [if_neg hlen]
        exact ⟨by omega, rfl⟩

theorem foldl_heappush_spec (ft : List (Nat × Nat)) : ∀ acc : List HuffmanNode,
    (ft.foldl (fun h sf => heappush h (.leaf sf.1 sf.2)) acc).length
      = acc.length + ft.length
    ∧ heapLeafMS (ft.foldl (fun h sf => heappush h (.leaf sf.1 sf.2)) acc)
      = heapLeafMS acc + ↑(ft.map (·.1)) := by
  induction ft with
  | nil => intro acc; exact ⟨rfl, by simp⟩
  | cons e t ih =>
      intro acc
      obtain ⟨ihl, ihm⟩ := ih (heappush acc (.leaf e.1 e.2))
      constructor
      · show (t.foldl _ (heappush acc (.leaf e.1 e.2))).length = _
        rw [ihl, heappush_length, List.length_cons]
        omega
      · show heapLeafMS (t.foldl _ (heappush acc (.leaf e.1 e.2))) = _
        rw [ihm, heappush_leafMS]
        show heapLeafMS acc + {e.1} + ↑(t.map (·.1)) = _
        rw [List.map_cons, ← Multiset.cons_coe, ← Multiset.singleton_add]
        abel

theorem build_huffman_tree_spec (ft : List (Nat × Nat)) (hft : ft ≠ []) :
    ∃ root, build_huffman_tree ft = some root
      ∧ leafMS root = ↑(ft.map (·.1)) := by
  unfold build_huffman_tree
  dsimp only
  obtain ⟨hlen0, hms0⟩ := foldl_heappush_spec ft []
  set heap0 := ft.foldl (fun h sf => heappush h (.leaf sf.1 sf.2)) [] with hheap0
  obtain ⟨hblen, hbms⟩ := buildLoop_spec heap0.length heap0 le_rfl
  have hftlen : 1 ≤ ft.length := by
    cases ft with
    | nil => exact absurd rfl hft
    | cons a t => simp
  have h1 : (buildLoop heap0.length heap0).length = 1 := by
    rw [hblen, hlen0]
    simp only [List.length_nil, Nat.zero_add]
    omega
  obtain ⟨root, hroot⟩ := List.length_eq_one.mp h1
  refine ⟨root, ?_, ?_⟩
  · rw [hroot]; rfl
  · have : heapLeafMS (buildLoop heap0.length heap0) = leafMS root := by
      rw [hroot]
      unfold heapLeafMS
      simp
    rw [← this, hbms, hms0]
    show (0 : Multiset Nat) + ↑(ft.map (·.1)) = _
    rw [zero_add]

section ChunkLemmas

theorem chunksOfAux_fuel (sb : Nat) (hsb : 1 ≤ sb) : ∀ (n : Nat) (data : List Bool)
    (f1 f2 : Nat), data.length ≤ n → data.length ≤ f1 → data.length ≤ f2 →
    chunksOfAux sb f1 data = chunksOfAux sb f2 data := by
  intro n
  induction n with
  | zero =>
      intro data f1 f2 hn _ _
      have : data = [] := List.length_eq_zero.mp (by omega)
      subst this
      cases f1 <;> cases f2 <;> rfl
  | succ m ih =>
      intro data f1 f2 hn h1 h2
      cases data with
      | nil => cases f1 <;> cases f2 <;> rfl
      | cons b t =>
          have hlen : (b :: t).length = t.length + 1 := rfl
          obtain ⟨g1, rfl⟩ : ∃ g1, f1 = g1 + 1 := ⟨f1 - 1, by omega⟩
          obtain ⟨g2, rfl⟩ : ∃ g2, f2 = g2 + 1 := ⟨f2 - 1, by omega⟩
          show (if (b :: t).isEmpty then _ else (b :: t).take sb :: chunksOfAux sb g1 ((b :: t).drop sb))
            = (if (b :: t).isEmpty then _ else (b :: t).take sb :: chunksOfAux sb g2 ((b :: t).drop sb))
          simp only [List.isEmpty_cons, Bool.false_eq_true, if_false]
          congr 1
          have hdlen : ((b :: t).drop sb).length = (b :: t).length - sb := List.length_drop _ _
          exact ih ((b :: t).drop sb) g1 g2 (by omega) (by omega) (by omega)

theorem chunksOf_nil (sb : Nat) : chunksOf sb [] = [] := by
  unfold chunksOf
  split <;> rfl

theorem chunksOf_cons (sb : Nat) (hsb : 1 ≤ sb) (data : List Bool) (hd : data ≠ []) :
    chunksOf sb data = data.take sb :: chunksOf sb (data.drop sb) := by
  unfold chunksOf
  rw [if_neg (by omega : ¬ sb = 0), if_neg (by omega : ¬ sb = 0)]
  obtain ⟨m, hm⟩ : ∃ m, data.length = m + 1 := by
    cases data with
    | nil => exact absurd rfl hd
    | cons b t => exact ⟨t.length, rfl⟩
  rw [hm]
  show (if data.isEmpty then [] else data.take sb :: chunksOfAux sb m (data.drop sb)) = _
  rw [if_neg (by simpa [List.isEmpty_iff] using hd)]
  congr 1
  have hdlen : (data.drop sb).length = data.length - sb := List.length_drop _ _
  exact chunksOfAux_fuel sb hsb (data.drop sb).length (data.drop sb) m
    (data.drop sb).length le_rfl (by omega) le_rfl

theorem chunksOf_flatten (sb : Nat) (hsb : 1 ≤ sb) : ∀ (n : Nat) (data : List Bool),
    data.length ≤ n → (chunksOf sb data).flatten = data := by
  intro n
  induction n with
  | zero =>
      intro data hn
      have : data = [] := List.length_eq_zero.mp (by omega)
      subst this
      rw [chunksOf_nil]
      rfl
  | succ m ih =>
      intro data hn
      by_cases hd : data = []
      · subst hd; rw [chunksOf_nil]; rfl
      · rw [chunksOf_cons sb hsb data hd]
        show data.take sb ++ (chunksOf sb (data.drop sb)).flatten = data
        rw [ih (data.drop sb) (by
          have := List.length_drop sb data
          have hpos : 0 < data.length := List.length_pos.mpr hd
          omega)]
        exact List.take_append_drop sb data

theorem chunksOf_props8 : ∀ (n : Nat) (data : List Bool), data.length ≤ n →
    8 ∣ data.length →
    (chunksOf 8 data).length = data.length / 8
    ∧ ∀ c ∈ chunksOf 8 data, c.length = 8 := by
  intro n
  induction n with
  | zero =>
      intro data hn _
      have : data = [] := List.length_eq_zero.mp (by omega)
      subst this
      rw [chunksOf_nil]
      exact ⟨rfl, by intro c hc; simp at hc⟩
  | succ m ih =>
      intro data hn hdvd
      by_cases hd : data = []
      · subst hd
        rw [chunksOf_nil]
        exact ⟨rfl, by intro c hc; simp at hc⟩
      · have hpos : 0 < data.length := List.length_pos.mpr hd
        have h8 : 8 ≤ data.length := by
          obtain ⟨k, hk⟩ := hdvd
          omega
        have hdrop : (data.drop 8).length = data.length - 8 := List.length_drop _ _
        have hdvd' : 8 ∣ (data.drop 8).length := by
          rw [hdrop]
          obtain ⟨k, hk⟩ := hdvd
          exact ⟨k - 1, by omega⟩
        obtain ⟨ihl, ihc⟩ := ih (data.drop 8) (by omega) hdvd'
        rw [chunksOf_cons 8 (by norm_num) data hd]
        constructor
        · rw [List.length_cons, ihl, hdrop]
          omega
        · intro c hc
          rcases List.mem_cons.mp hc with hc | hc
          · subst hc
            rw [List.length_take]
            omega
          · exact ihc c hc

end ChunkLemmas

section FreqLemmas

theorem bump_keys_mem : ∀ (t : List (Nat × Nat)) (v k : Nat),
    k ∈ (bump t v).map (·.1) ↔ (k ∈ t.map (·.1) ∨ k = v) := by
  intro t
  induction t with
  | nil => intro v k; simp [bump]
  | cons e t ih =>
      intro v k
      obtain ⟨ek, ec⟩ := e
      show k ∈ (if ek = v then (ek, ec + 1) :: t else (ek, ec) :: bump t v).map (·.1) ↔ _
      split
      · next he =>
          subst he
          simp only [List.map_cons, List.mem_cons]
          tauto
      · next he =>
          simp only [List.map_cons, List.mem_cons, ih v k]
          tauto

theorem bump_keys_nodup : ∀ (t : List (Nat × Nat)) (v : Nat),
    (t.map (·.1)).Nodup → ((bump t v).map (·.1)).Nodup := by
  intro t
  induction t with
  | nil => intro v _; simp [bump]
  | cons e t ih =>
      intro v hnd
      obtain ⟨ek, ec⟩ := e
      simp only [List.map_cons, List.nodup_cons] at hnd
      show ((if ek = v then (ek, ec + 1) :: t else (ek, ec) :: bump t v).map (·.1)).Nodup
      split
      · next he =>
          simp only [List.map_cons, List.nodup_cons]
          exact hnd
      · next he =>
          simp only [List.map_cons, List.nodup_cons]
          refine ⟨?_, ih v hnd.2⟩
          intro hmem
          rcases (bump_keys_mem t v ek).mp hmem with h | h
          · exact hnd.1 h
          · exact he h

theorem foldl_bump_mem : ∀ (l : List Nat) (acc : List (Nat × Nat)) (k : Nat),
    k ∈ ((l.foldl bump acc).map (·.1)) ↔ k ∈ acc.map (·.1) ∨ k ∈ l := by
  intro l
  induction l with
  | nil => intro acc k; simp
  | cons v t ih =>
      intro acc k
      show k ∈ ((t.foldl bump (bump acc v)).map (·.1)) ↔ _
      rw [ih (bump acc v) k, bump_keys_mem]
      simp only [List.mem_cons]
      tauto

theorem foldl_bump_nodup : ∀ (l : List Nat) (acc : List (Nat × Nat)),
    (acc.map (·.1)).Nodup → ((l.foldl bump acc).map (·.1)).Nodup := by
  intro l
  induction l with
  | nil => intro acc h; exact h
  | cons v t ih =>
      intro acc h
      exact ih (bump acc v) (bump_keys_nodup acc v h)

/-- Keys of the frequency table of nonempty data: nodup, and exactly the chunk
values. -/
theorem build_frequency_table_keys (data : List Bool) (sb : Nat) (hd : data ≠ []) :
    ((build_frequency_table data sb).map (·.1)).Nodup
    ∧ ∀ k, k ∈ (build_frequency_table data sb).map (·.1)
        ↔ k ∈ (chunksOf sb data).map bitsToNat := by
  unfold build_frequency_table
  rw [if_neg (by simpa [List.isEmpty_iff] using hd)]
  refine ⟨foldl_bump_nodup _ [] (by simp), ?_⟩
  intro k
  rw [foldl_bump_mem]
  simp

theorem nodup_bounded_length {ks : List Nat} (h : ks.Nodup) (n : Nat)
    (hb : ∀ k ∈ ks, k < n) : ks.length ≤ n := by
  have hcard : ks.toFinset.card = ks.length := List.toFinset_card_of_nodup h
  have hsub : ks.toFinset ⊆ Finset.range n := by
    intro k hk
    rw [Finset.mem_range]
    exact hb k (List.mem_toFinset.mp hk)
  have := Finset.card_le_card hsub
  rw [hcard, Finset.card_range] at this
  exact this

end FreqLemmas

section TreeSerLemmas

/-- Number of nodes of a tree (serialization emits at least one bit per node). -/
def nodeCount : HuffmanNode → Nat
  | .leaf _ _ => 1
  | .internal _ l r => 1 + nodeCount l + nodeCount r

/-- Deserialization forgets frequencies (Python recreates nodes with the
default frequency 0). -/
def zeroFreq : HuffmanNode → HuffmanNode
  | .leaf s _ => .leaf s 0
  | .internal _ l r => .internal 0 (zeroFreq l) (zeroFreq r)

theorem leafMS_card_pos : ∀ t : HuffmanNode, 1 ≤ (leafMS t).card := by
  intro t
  induction t with
  | leaf s f => simp [leafMS]
  | internal f l r ihl ihr =>
      show 1 ≤ (leafMS l + leafMS r).card
      rw [Multiset.card_add]
      omega

theorem serNode_length_leaf (sb s f : Nat) (hsb : 1 ≤ sb) (hs : s < 2 ^ sb) :
    (serNode sb (.leaf s f)).length = 1 + sb := by
  show (true :: padded s sb).length = 1 + sb
  rw [List.length_cons, padded_length hsb hs]
  omega

theorem nodeCount_le_serNode (sb : Nat) : ∀ t : HuffmanNode,
    nodeCount t ≤ (serNode sb t).length := by
  intro t
  induction t with
  | leaf s f =>
      show 1 ≤ (true :: padded s sb).length
      simp
  | internal f l r ihl ihr =>
      show 1 + nodeCount l + nodeCount r
        ≤ (false :: (serNode sb l ++ serNode sb r)).length
      rw [List.length_cons, List.length_append]
      omega

theorem serNode_length_bound (sb : Nat) (hsb : 1 ≤ sb) : ∀ t : HuffmanNode,
    (∀ s ∈ leafMS t, s < 2 ^ sb) →
    (serNode sb t).length + 1 ≤ (sb + 2) * (leafMS t).card := by
  intro t
  induction t with
  | leaf s f =>
      intro hs
      rw [serNode_length_leaf sb s f hsb (hs s (by simp [leafMS]))]
      show 1 + sb + 1 ≤ (sb + 2) * ({s} : Multiset Nat).card
      simp
      omega
  | internal f l r ihl ihr =>
      intro hs
      have hsl : ∀ s ∈ leafMS l, s < 2 ^ sb := by
        intro s hmem
        exact hs s (by show s ∈ leafMS l + leafMS r; rw [Multiset.mem_add]; exact Or.inl hmem)
      have hsr : ∀ s ∈ leafMS r, s < 2 ^ sb := by
        intro s hmem
        exact hs s (by show s ∈ leafMS l + leafMS r; rw [Multiset.mem_add]; exact Or.inr hmem)
      have hl := ihl hsl
      have hr := ihr hsr
      show (false :: (serNode sb l ++ serNode sb r)).length + 1
        ≤ (sb + 2) * (leafMS l + leafMS r).card
      rw [List.length_cons, List.length_append, Multiset.card_add]
      have : (sb + 2) * ((leafMS l).card + (leafMS r).card)
          = (sb + 2) * (leafMS l).card + (sb + 2) * (leafMS r).card := by ring
      rw [this]
      omega

theorem getAt_append : ∀ (A : List Bool) (b : Bool) (B : List Bool),
    (A ++ b :: B)[A.length]? = some b := by
  intro A
  induction A with
  | nil => intro b B; simp
  | cons a t ih => intro b B; simpa using ih b B

theorem dnodeAux_ser (sb : Nat) (hsb : 1 ≤ sb) : ∀ (t : HuffmanNode)
    (fuel : Nat) (pre rest : List Bool),
    (∀ s ∈ leafMS t, s < 2 ^ sb) → nodeCount t < fuel →
    dnodeAux (pre ++ serNode sb t ++ rest) sb fuel pre.length
      = some (zeroFreq t, pre.length + (serNode sb t).length) := by
  intro t
  induction t with
  | leaf s f =>
      intro fuel pre rest hs hfuel
      obtain ⟨fu, rfl⟩ : ∃ fu, fuel = fu + 1 := ⟨fuel - 1, by omega⟩
      have hslt : s < 2 ^ sb := hs s (by simp [leafMS])
      have hshape : pre ++ serNode sb (.leaf s f) ++ rest
          = pre ++ true :: (padded s sb ++ rest) := by
        show pre ++ (true :: padded s sb) ++ rest = _
        simp [List.append_assoc]
      unfold dnodeAux
      rw [hshape, getAt_append]
      dsimp only
      have hdrop : (pre ++ true :: (padded s sb ++ rest)).drop (pre.length + 1)
          = padded s sb ++ rest := by
        have : pre ++ true :: (padded s sb ++ rest)
            = (pre ++ [true]) ++ (padded s sb ++ rest) := by simp
        rw [this]
        exact drop_len_append _ _ _ (by simp)
      have hslice : pySlice (pre ++ true :: (padded s sb ++ rest)) (pre.length + 1)
          (pre.length + 1 + sb) = padded s sb := by
        unfold pySlice
        rw [hdrop]
        exact take_len_append _ _ _ (by rw [padded_length hsb hslt]; omega)
      rw [hslice]
      have hne : (padded s sb).isEmpty = false := by
        have := padded_length hsb hslt
        cases hp : padded s sb with
        | nil => rw [hp] at this; simp at this; omega
        | cons a l => rfl
      rw [hne]
      simp only [Bool.false_eq_true, if_false]
      show some (HuffmanNode.leaf (bitsToNat (padded s sb)) 0, pre.length + 1 + sb)
        = some (zeroFreq (.leaf s f), pre.length + (serNode sb (.leaf s f)).length)
      rw [bitsToNat_padded]
      show some (HuffmanNode.leaf s 0, pre.length + 1 + sb)
        = some (HuffmanNode.leaf s 0, pre.length + (true :: padded s sb).length)
      rw [List.length_cons, padded_length hsb hslt]
      congr 2
      omega
  | internal f l r ihl ihr =>
      intro fuel pre rest hs hfuel
      obtain ⟨fu, rfl⟩ : ∃ fu, fuel = fu + 1 := ⟨fuel - 1, by omega⟩
      have hsl : ∀ s ∈ leafMS l, s < 2 ^ sb := by
        intro s hmem
        exact hs s (by show s ∈ leafMS l + leafMS r; rw [Multiset.mem_add]; exact Or.inl hmem)
      have hsr : ∀ s ∈ leafMS r, s < 2 ^ sb := by
        intro s hmem
        exact hs s (by show s ∈ leafMS l + leafMS r; rw [Multiset.mem_add]; exact Or.inr hmem)
      have hcount : nodeCount (.internal f l r) = 1 + nodeCount l + nodeCount r := rfl
      rw [hcount] at hfuel
      have hshape : pre ++ serNode sb (.internal f l r) ++ rest
          = pre ++ false :: (serNode sb l ++ (serNode sb r ++ rest)) := by
        show pre ++ (false :: (serNode sb l ++ serNode sb r)) ++ rest = _
        simp [List.append_assoc]
      unfold dnodeAux
      rw [hshape, getAt_append]
      dsimp only
      have hleft : dnodeAux (pre ++ false :: (serNode sb l ++ (serNode sb r ++ rest)))
          sb fu (pre.length + 1)
          = some (zeroFreq l, pre.length + 1 + (serNode sb l).length) := by
        have hre : pre ++ false :: (serNode sb l ++ (serNode sb r ++ rest))
            = (pre ++ [false]) ++ serNode sb l ++ (serNode sb r ++ rest) := by
          simp
        have hplen : (pre ++ [false]).length = pre.length + 1 := by simp
        rw [hre, ← hplen]
        rw [ihl fu (pre ++ [false]) (serNode sb r ++ rest) hsl (by omega), hplen]
      rw [hleft]
      dsimp only
      have hright : dnodeAux (pre ++ false :: (serNode sb l ++ (serNode sb r ++ rest)))
          sb fu (pre.length + 1 + (serNode sb l).length)
          = some (zeroFreq r, pre.length + 1 + (serNode sb l).length
              + (serNode sb r).length) := by
        have hre : pre ++ false :: (serNode sb l ++ (serNode sb r ++ rest))
            = ((pre ++ [false]) ++ serNode sb l) ++ serNode sb r ++ rest := by
          simp
        have hplen : ((pre ++ [false]) ++ serNode sb l).length
            = pre.length + 1 + (serNode sb l).length := by simp; omega
        rw [hre, ← hplen]
        rw [ihr fu ((pre ++ [false]) ++ serNode sb l) rest hsr (by omega), hplen]
      rw [hright]
      dsimp only
      show some (HuffmanNode.internal 0 (zeroFreq l) (zeroFreq r), _) = _
      have hser : (serNode sb (.internal f l r)).length
          = 1 + (serNode sb l).length + (serNode sb r).length := by
        show (false :: (serNode sb l ++ serNode sb r)).length = _
        rw [List.length_cons, List.length_append]
        omega
      rw [hser]
      congr 2
      omega

theorem deserialize_serNode (sb : Nat) (hsb : 1 ≤ sb) (t : HuffmanNode)
    (hs : ∀ s ∈ leafMS t, s < 2 ^ sb) :
    deserialize_tree (serNode sb t) sb = (some (zeroFreq t), (serNode sb t).length) := by
  have hne : serNode sb t ≠ [] := by
    cases t with
    | leaf s f => simp [serNode]
    | internal f l r => simp [serNode]
  unfold deserialize_tree
  rw [if_neg (by simpa [List.isEmpty_iff] using hne)]
  have := dnodeAux_ser sb hsb t ((serNode sb t).length + 1) [] [] hs
    (by have := nodeCount_le_serNode sb t; omega)
  simp only [List.append_nil, List.nil_append, List.length_nil, Nat.zero_add] at this
  rw [this]

section CodeLemmas

/-- Root-to-leaf paths: `p` leads from the root of `t` to a leaf with symbol
`s` (left = 0, right = 1). -/
inductive IsPath : HuffmanNode → List Bool → Nat → Prop where
  | leaf (s f : Nat) : IsPath (.leaf s f) [] s
  | left {l r : HuffmanNode} {p : List Bool} {s : Nat} (f : Nat) :
      IsPath l p s → IsPath (.internal f l r) (false :: p) s
  | right {l r : HuffmanNode} {p : List Bool} {s : Nat} (f : Nat) :
      IsPath r p s → IsPath (.internal f l r) (true :: p) s

theorem IsPath_zeroFreq {t : HuffmanNode} {p : List Bool} {s : Nat}
    (h : IsPath t p s) : IsPath (zeroFreq t) p s := by
  induction h with
  | leaf s f => exact IsPath.leaf s 0
  | left f _ ih => exact IsPath.left 0 ih
  | right f _ ih => exact IsPath.right 0 ih

theorem genList_entries : ∀ (t : HuffmanNode) (pre : List Bool), pre ≠ [] →
    ∀ e ∈ genList t pre, ∃ p, e.2 = pre ++ p ∧ IsPath t p e.1 := by
  intro t
  induction t with
  | leaf s f =>
      intro pre hpre e he
      have : genList (.leaf s f) pre = [(s, pre)] := by
        show [(s, if pre.isEmpty then [false] else pre)] = _
        rw [if_neg (by simpa [List.isEmpty_iff] using hpre)]
      rw [this] at he
      rcases List.mem_singleton.mp he with rfl
      exact ⟨[], by simp, IsPath.leaf s f⟩
  | internal f l r ihl ihr =>
      intro pre hpre e he
      rcases List.mem_append.mp he with h | h
      · obtain ⟨p, hp, hpath⟩ := ihl (pre ++ [false]) (by simp) e h
        exact ⟨false :: p, by rw [hp]; simp, IsPath.left f hpath⟩
      · obtain ⟨p, hp, hpath⟩ := ihr (pre ++ [true]) (by simp) e h
        exact ⟨true :: p, by rw [hp]; simp, IsPath.right f hpath⟩

theorem genList_mem : ∀ (t : HuffmanNode) (pre : List Bool) (v : Nat),
    v ∈ leafMS t → ∃ c, (v, c) ∈ genList t pre := by
  intro t
  induction t with
  | leaf s f =>
      intro pre v hv
      have : v = s := by simpa [leafMS] using hv
      subst this
      exact ⟨_, List.mem_singleton.mpr rfl⟩
  | internal f l r ihl ihr =>
      intro pre v hv
      rcases Multiset.mem_add.mp (by simpa [leafMS] using hv) with h | h
      · obtain ⟨c, hc⟩ := ihl (pre ++ [false]) v h
        exact ⟨c, List.mem_append.mpr (Or.inl hc)⟩
      · obtain ⟨c, hc⟩ := ihr (pre ++ [true]) v h
        exact ⟨c, List.mem_append.mpr (Or.inr hc)⟩

/-- For an internal root, every code-dictionary entry is a nonempty
root-to-leaf path for its key. -/
theorem genList_root_entries (f : Nat) (l r : HuffmanNode) :
    ∀ e ∈ genList (.internal f l r) [], IsPath (.internal f l r) e.2 e.1 ∧ e.2 ≠ [] := by
  intro e he
  rcases List.mem_append.mp he with h | h
  · obtain ⟨p, hp, hpath⟩ := genList_entries l [false] (by simp) e h
    refine ⟨?_, by rw [hp]; simp⟩
    rw [hp]
    exact IsPath.left f hpath
  · obtain ⟨p, hp, hpath⟩ := genList_entries r [true] (by simp) e h
    refine ⟨?_, by rw [hp]; simp⟩
    rw [hp]
    exact IsPath.right f hpath

theorem lookup_dinsert_eq : ∀ (d : List (Nat × List Bool)) (k : Nat) (v : List Bool),
    List.lookup k (dinsert d k v) = some v := by
  intro d
  induction d with
  | nil => intro k v; simp [dinsert, List.lookup]
  | cons e t ih =>
      intro k v
      obtain ⟨k', v'⟩ := e
      show List.lookup k (if k' = k then (k', v) :: t else (k', v') :: dinsert t k v) = _
      split
      · next he => subst he; simp [List.lookup]
      · next he =>
          have : (k == k') = false := by
            simp only [beq_eq_false_iff_ne, ne_eq]
            exact fun hh => he hh.symm
          simp [List.lookup, this, ih]

theorem lookup_dinsert_ne : ∀ (d : List (Nat × List Bool)) (k₀ k : Nat) (v : List Bool),
    k₀ ≠ k → List.lookup k (dinsert d k₀ v) = List.lookup k d := by
  intro d
  induction d with
  | nil =>
      intro k₀ k v h
      have : (k == k₀) = false := by
        simp only [beq_eq_false_iff_ne, ne_eq]
        exact fun hh => h hh.symm
      simp [dinsert, List.lookup, this]
  | cons e t ih =>
      intro k₀ k v h
      obtain ⟨k', v'⟩ := e
      show List.lookup k (if k' = k₀ then (k', v) :: t else (k', v') :: dinsert t k₀ v) = _
      split
      · next he =>
          subst he
          have : (k == k') = false := by
            simp only [beq_eq_false_iff_ne, ne_eq]
            exact fun hh => h (hh.symm ▸ rfl)
          simp [List.lookup, this]
      · next he =>
          by_cases hk : k == k'
          · simp [List.lookup, hk]
          · simp only [List.lookup, hk]
            simp only [Bool.false_eq_true, if_false] at hk ⊢
            exact ih k₀ k v h

theorem foldl_dinsert_lookup : ∀ (l d : List (Nat × List Bool)) (k : Nat),
    List.lookup k (l.foldl (fun d e => dinsert d e.1 e.2) d)
      = (match l.reverse.find? (fun e => decide (e.1 = k)) with
        | some e => some e.2
        | none => List.lookup k d) := by
  intro l
  induction l with
  | nil => intro d k; rfl
  | cons e t ih =>
      intro d k
      show List.lookup k (t.foldl _ (dinsert d e.1 e.2)) = _
      rw [ih (dinsert d e.1 e.2) k]
      have hrev : (e :: t).reverse = t.reverse ++ [e] := by simp
      rw [hrev, List.find?_append]
      cases hf : t.reverse.find? (fun e => decide (e.1 = k)) with
      | some e' => rfl
      | none =>
          show List.lookup k (dinsert d e.1 e.2)
            = (match [e].find? (fun e => decide (e.1 = k)) with
              | some e => some e.2
              | none => List.lookup k d)
          by_cases hek : e.1 = k
          · rw [hek, lookup_dinsert_eq]
            have : [e].find? (fun e => decide (e.1 = k)) = some e :=
              List.find?_cons_of_pos _ (by simp [hek])
            rw [this]
          · rw [lookup_dinsert_ne d e.1 k e.2 hek]
            have : [e].find? (fun e => decide (e.1 = k)) = none := by
              rw [List.find?_cons_of_neg _ (by simp [hek])]
              rfl
            rw [this]

/-- Every symbol occurring among the leaves has a dictionary code, and that
code is one of the traversal's assignments. -/
theorem lookup_codes_of_leaf (root : HuffmanNode) (v : Nat) (hv : v ∈ leafMS root) :
    ∃ c, List.lookup v (generate_huffman_codes root) = some c
      ∧ (v, c) ∈ genList root [] := by
  unfold generate_huffman_codes
  rw [foldl_dinsert_lookup]
  obtain ⟨c₀, hc₀⟩ := genList_mem root [] v hv
  have hex : ∃ x ∈ (genList root []).reverse, (fun e => decide (e.1 = v)) x = true :=
    ⟨(v, c₀), List.mem_reverse.mpr hc₀, by simp⟩
  have hsome := List.find?_isSome.mpr hex
  obtain ⟨e, he⟩ := Option.isSome_iff_exists.mp hsome
  have hpred : e.1 = v := by
    have := List.find?_some he
    simpa using this
  have hmem : e ∈ genList root [] := List.mem_reverse.mp (List.mem_of_find?_eq_some he)
  refine ⟨e.2, ?_, ?_⟩
  · rw [he]
  · rw [← hpred]
    exact hmem

end CodeLemmas

section WalkLemmas

theorem isPath_nil_leaf {t : HuffmanNode} {s : Nat} (h : IsPath t [] s) :
    ∃ f0, t = .leaf s f0 := by
  cases h
  exact ⟨_, rfl⟩

theorem isPath_cons_internal {t : HuffmanNode} {b : Bool} {p : List Bool} {s : Nat}
    (h : IsPath t (b :: p) s) : ∃ f0 l0 r0, t = .internal f0 l0 r0 := by
  cases h <;> exact ⟨_, _, _, rfl⟩

theorem walk_code (root : HuffmanNode) (sb olb : Nat) :
    ∀ {cur : HuffmanNode} {p : List Bool} {s : Nat}, IsPath cur p s → p ≠ [] →
    ∀ (rest acc : List Bool),
      walk root sb olb cur (p ++ rest) acc
        = (if olb ≤ (acc ++ padded s sb).length then acc ++ padded s sb
           else walk root sb olb root rest (acc ++ padded s sb)) := by
  intro cur p s h
  induction h with
  | leaf s f => intro hne; exact absurd rfl hne
  | @left l r p' s' f hsub ih =>
      intro _ rest acc
      cases p' with
      | nil =>
          obtain ⟨f0, rfl⟩ := isPath_nil_leaf hsub
          show walk root sb olb (.internal f (.leaf s' f0) r) (false :: rest) acc = _
          simp only [walk, stepNode]
      | cons b t' =>
          obtain ⟨f0, l0, r0, heq⟩ := isPath_cons_internal hsub
          subst heq
          show walk root sb olb (.internal f (.internal f0 l0 r0) r)
            (false :: ((b :: t') ++ rest)) acc = _
          have hstep : walk root sb olb (.internal f (.internal f0 l0 r0) r)
              (false :: ((b :: t') ++ rest)) acc
              = walk root sb olb (.internal f0 l0 r0) ((b :: t') ++ rest) acc := by
            simp only [walk, stepNode]
          rw [hstep]
          exact ih (by simp) rest acc
  | @right l r p' s' f hsub ih =>
      intro _ rest acc
      cases p' with
      | nil =>
          obtain ⟨f0, rfl⟩ := isPath_nil_leaf hsub
          show walk root sb olb (.internal f l (.leaf s' f0)) (true :: rest) acc = _
          simp only [walk, stepNode]
      | cons b t' =>
          obtain ⟨f0, l0, r0, heq⟩ := isPath_cons_internal hsub
          subst heq
          show walk root sb olb (.internal f l (.internal f0 l0 r0))
            (true :: ((b :: t') ++ rest)) acc = _
          have hstep : walk root sb olb (.internal f l (.internal f0 l0 r0))
              (true :: ((b :: t') ++ rest)) acc
              = walk root sb olb (.internal f0 l0 r0) ((b :: t') ++ rest) acc := by
            simp only [walk, stepNode]
          rw [hstep]
          exact ih (by simp) rest acc

theorem walk_payload (root : HuffmanNode) (sb olb : Nat) (hsb : 1 ≤ sb) :
    ∀ (items : List (Nat × List Bool)) (acc : List Bool),
    (∀ it ∈ items, IsPath root it.2 it.1 ∧ it.2 ≠ [] ∧ (padded it.1 sb).length = sb) →
    acc.length + sb * items.length = olb →
    walk root sb olb root ((items.map (·.2)).flatten) acc
      = acc ++ (items.map (fun it => padded it.1 sb)).flatten := by
  intro items
  induction items with
  | nil =>
      intro acc _ _
      show walk root sb olb root [] acc = acc ++ ([] : List (List Bool)).flatten
      show acc = acc ++ []
      rw [List.append_nil]
  | cons it t ih =>
      intro acc hall hlen
      obtain ⟨hpath, hne, hplen⟩ := hall it (List.mem_cons_self it t)
      show walk root sb olb root (it.2 ++ (t.map (·.2)).flatten) acc = _
      rw [walk_code root sb olb hpath hne _ acc]
      have hacc' : (acc ++ padded it.1 sb).length = acc.length + sb := by
        rw [List.length_append, hplen]
      have hlencons : (it :: t).length = t.length + 1 := rfl
      rw [hlencons] at hlen
      have hmul : sb * (t.length + 1) = sb * t.length + sb := by ring
      rw [hmul] at hlen
      by_cases ht : t = []
      · subst ht
        simp only [List.length_nil, Nat.mul_zero, Nat.zero_add] at hlen
        rw [if_pos (by omega)]
        show acc ++ padded it.1 sb
          = acc ++ ((it :: []).map (fun it => padded it.1 sb)).flatten
        simp
      · have htpos : 1 ≤ t.length := by
          cases t with
          | nil => exact absurd rfl ht
          | cons a l => simp
        have hsbt : 1 ≤ sb * t.length := Nat.mul_pos hsb htpos
        rw [if_neg (by omega)]
        rw [ih (acc ++ padded it.1 sb)
          (fun it' h' => hall it' (List.mem_cons_of_mem it h'))
          (by rw [hacc']; omega)]
        show acc ++ padded it.1 sb ++ (t.map (fun it => padded it.1 sb)).flatten
          = acc ++ ((it :: t).map (fun it => padded it.1 sb)).flatten
        simp [List.append_assoc]

theorem walk_leaf_root (s f sb olb : Nat) (hplen : (padded s sb).length = sb)
    (hsb : 1 ≤ sb) : ∀ (n : Nat) (acc : List Bool), acc.length + sb * n = olb →
    walk (.leaf s f) sb olb (.leaf s f) (List.replicate n false) acc
      = acc ++ (List.replicate n (padded s sb)).flatten := by
  intro n
  induction n with
  | zero =>
      intro acc _
      show acc = acc ++ ([] : List (List Bool)).flatten
      show acc = acc ++ []
      rw [List.append_nil]
  | succ m ih =>
      intro acc hlen
      rw [List.replicate_succ]
      show (match stepNode (.leaf s f) false with
        | HuffmanNode.leaf s0 f0 =>
            let result' := acc ++ padded s0 sb
            if olb ≤ result'.length then result'
            else walk (.leaf s f) sb olb (.leaf s f) (List.replicate m false) result'
        | HuffmanNode.internal f0 l0 r0 =>
            walk (.leaf s f) sb olb (.internal f0 l0 r0) (List.replicate m false) acc) = _
      show (let result' := acc ++ padded s sb
        if olb ≤ result'.length then result'
        else walk (.leaf s f) sb olb (.leaf s f) (List.replicate m false) result') = _
      dsimp only
      have hacc' : (acc ++ padded s sb).length = acc.length + sb := by
        rw [List.length_append, hplen]
      have hmul : sb * (m + 1) = sb * m + sb := by ring
      rw [hmul] at hlen
      by_cases hm : m = 0
      · subst hm
        simp only [Nat.mul_zero, Nat.zero_add] at hlen
        rw [if_pos (by omega)]
        show acc ++ padded s sb = acc ++ (List.replicate 1 (padded s sb)).flatten
        simp
      · have hsbm : 1 ≤ sb * m := Nat.mul_pos hsb (by omega)
        rw [if_neg (by omega)]
        rw [ih (acc ++ padded s sb) (by rw [hacc']; omega)]
        rw [List.replicate_succ]
        show acc ++ padded s sb ++ (List.replicate m (padded s sb)).flatten
          = acc ++ (padded s sb :: List.replicate m (padded s sb)).flatten
        simp [List.append_assoc]

theorem flatten_map_single (x : List Bool) : ∀ (l : List (List Bool)),
    (l.map (fun _ => [false])).flatten = List.replicate l.length false := by
  intro l
  induction l with
  | nil => rfl
  | cons c t ih =>
      show [false] ++ (t.map (fun _ => [false])).flatten
        = List.replicate (t.length + 1) false
      rw [ih, List.replicate_succ]
      rfl

end WalkLemmas

/-- Core Huffman round trip: for byte-aligned data of fewer than `2^17` bytes,
encoding succeeds and decoding the frame restores the data exactly. -/
theorem huffman_roundtrip_aux (data : List Bool) (h8 : 8 ∣ data.length)
    (hbound : data.length / 8 < 2 ^ 17) :
    ∃ e, huffman_encode data 8 = .ok e ∧ huffman_decode e = data := by
  by_cases hd : data = []
  · subst hd
    exact ⟨[], rfl, rfl⟩
  · have hsb8 : (1 : Nat) ≤ 8 := by norm_num
    obtain ⟨hchlen, hchmem⟩ := chunksOf_props8 data.length data le_rfl h8
    have hflat := chunksOf_flatten 8 hsb8 data.length data le_rfl
    obtain ⟨hnodup, hkeys⟩ := build_frequency_table_keys data 8 hd
    have hchne : chunksOf 8 data ≠ [] := by
      rw [chunksOf_cons 8 hsb8 data hd]
      simp
    have hftne : build_frequency_table data 8 ≠ [] := by
      intro hft0
      cases hch : chunksOf 8 data with
      | nil => exact hchne hch
      | cons c cs =>
          have h1 : bitsToNat c ∈ (chunksOf 8 data).map bitsToNat := by
            rw [hch]; simp
          have h2 := (hkeys (bitsToNat c)).mpr h1
          rw [hft0] at h2
          simp at h2
    obtain ⟨root, hroot, hleafms⟩ := build_huffman_tree_spec _ hftne
    have hvals : ∀ c ∈ chunksOf 8 data, bitsToNat c ∈ leafMS root := by
      intro c hc
      rw [hleafms]
      exact Multiset.mem_coe.mpr ((hkeys _).mpr (List.mem_map_of_mem _ hc))
    have hsym : ∀ s ∈ leafMS root, s < 2 ^ 8 := by
      intro s hs
      rw [hleafms] at hs
      obtain ⟨c, hc, rfl⟩ := List.mem_map.mp ((hkeys s).mp (Multiset.mem_coe.mp hs))
      have := bitsToNat_lt c
      rw [hchmem c hc] at this
      exact this
    have hts1 := serNode_length_bound 8 hsb8 root hsym
    have hcard : (leafMS root).card = ((build_frequency_table data 8).map (·.1)).length := by
      rw [hleafms]
      exact Multiset.coe_card _
    have hkb : ((build_frequency_table data 8).map (·.1)).length ≤ 256 := by
      refine nodup_bounded_length hnodup 256 ?_
      intro k hk
      obtain ⟨c, hc, rfl⟩ := List.mem_map.mp ((hkeys k).mp hk)
      have := bitsToNat_lt c
      rw [hchmem c hc] at this
      exact this
    have htsmall : (serNode 8 root).length < 2 ^ 16 := by
      have h10 : (8 + 2) * (leafMS root).card ≤ 2560 := by
        rw [hcard]
        calc (8 + 2) * ((build_frequency_table data 8).map (·.1)).length
            ≤ (8 + 2) * 256 := Nat.mul_le_mul_left _ hkb
          _ = 2560 := by norm_num
      omega
    set ts := (serNode 8 root).length with hts
    set olb := data.length / 8 with holb
    set codes := generate_huffman_codes root with hcodes
    have hlookup : ∀ c ∈ chunksOf 8 data,
        ∃ cd, List.lookup (bitsToNat c) codes = some cd
          ∧ (bitsToNat c, cd) ∈ genList root [] :=
      fun c hc => lookup_codes_of_leaf root (bitsToNat c) (hvals c hc)
    set items := (chunksOf 8 data).map
      (fun c => (bitsToNat c, (List.lookup (bitsToNat c) codes).getD [])) with hitems
    have hpayload : (chunksOf 8 data).map (fun chunk =>
        match List.lookup (bitsToNat chunk) codes with
        | some c => c
        | none => []) = items.map (·.2) := by
      rw [hitems, List.map_map]
      refine List.map_congr_left ?_
      intro c hc
      obtain ⟨cd, hcd, _⟩ := hlookup c hc
      show (match List.lookup (bitsToNat c) codes with
        | some c => c
        | none => ([] : List Bool))
        = ((bitsToNat c, (List.lookup (bitsToNat c) codes).getD []) : Nat × List Bool).2
      rw [hcd]
      rfl
    have hitems_len : items.length = olb := by
      rw [hitems, List.length_map, hchlen, holb]
    have holbits : olb * 8 = data.length := by
      rw [holb]
      exact Nat.div_mul_cancel h8
    -- Field lengths
    have hF1len : (padded 8 SYMBOL_BITS_FIELD).length = SYMBOL_BITS_FIELD :=
      padded_length (by norm_num [SYMBOL_BITS_FIELD]) (by norm_num [SYMBOL_BITS_FIELD])
    have hF2len : (padded ts TREE_SIZE_FIELD_BITS).length = TREE_SIZE_FIELD_BITS :=
      padded_length (by norm_num [TREE_SIZE_FIELD_BITS]) htsmall
    have hF4len : (padded olb LENGTH_FIELD_BITS).length = LENGTH_FIELD_BITS :=
      padded_length (by norm_num [LENGTH_FIELD_BITS]) hbound
    set E := padded 8 SYMBOL_BITS_FIELD ++ (padded ts TREE_SIZE_FIELD_BITS
      ++ (serNode 8 root ++ (padded olb LENGTH_FIELD_BITS
        ++ (items.map (·.2)).flatten))) with hE
    have henc : huffman_encode data 8 = .ok E := by
      unfold huffman_encode
      rw [if_neg (by simpa [List.isEmpty_iff] using hd)]
      dsimp only
      rw [hroot]
      dsimp only
      have hser : serialize_tree (some root) 8 = serNode 8 root := rfl
      rw [hser]
      rw [if_neg (by
        show ¬ 2 ^ TREE_SIZE_FIELD_BITS ≤ (serNode 8 root).length
        rw [← hts]
        simp only [TREE_SIZE_FIELD_BITS]
        omega)]
      rw [hpayload]
      show Except.ok _ = Except.ok E
      rw [hE]
      congr 1
      simp [List.append_assoc]
    -- Decode
    have hEne : E ≠ [] := by
      rw [hE]
      intro h0
      have := congrArg List.length h0
      rw [List.length_append, hF1len] at this
      simp [SYMBOL_BITS_FIELD] at this
    have hd6 : E.drop SYMBOL_BITS_FIELD
        = padded ts TREE_SIZE_FIELD_BITS ++ (serNode 8 root
          ++ (padded olb LENGTH_FIELD_BITS ++ (items.map (·.2)).flatten)) := by
      rw [hE]
      exact drop_len_append _ _ _ hF1len
    have hd22 : E.drop (SYMBOL_BITS_FIELD + TREE_SIZE_FIELD_BITS)
        = serNode 8 root ++ (padded olb LENGTH_FIELD_BITS
          ++ (items.map (·.2)).flatten) := by
      rw [← List.drop_drop, hd6]
      exact drop_len_append _ _ _ hF2len
    have hdte : E.drop (SYMBOL_BITS_FIELD + TREE_SIZE_FIELD_BITS + ts)
        = padded olb LENGTH_FIELD_BITS ++ (items.map (·.2)).flatten := by
      rw [← List.drop_drop, hd22]
      exact drop_len_append _ _ _ rfl
    have hdpay : E.drop (SYMBOL_BITS_FIELD + TREE_SIZE_FIELD_BITS + ts
        + LENGTH_FIELD_BITS) = (items.map (·.2)).flatten := by
      rw [← List.drop_drop, hdte]
      exact drop_len_append _ _ _ hF4len
    have hs1 : pySlice E 0 SYMBOL_BITS_FIELD = padded 8 SYMBOL_BITS_FIELD := by
      unfold pySlice
      rw [List.drop_zero, hE]
      have : SYMBOL_BITS_FIELD - 0 = SYMBOL_BITS_FIELD := rfl
      rw [this]
      exact take_len_append _ _ _ hF1len
    have hs2 : pySlice E SYMBOL_BITS_FIELD (SYMBOL_BITS_FIELD + TREE_SIZE_FIELD_BITS)
        = padded ts TREE_SIZE_FIELD_BITS := by
      unfold pySlice
      rw [hd6]
      have : SYMBOL_BITS_FIELD + TREE_SIZE_FIELD_BITS - SYMBOL_BITS_FIELD
          = TREE_SIZE_FIELD_BITS := by omega
      rw [this]
      exact take_len_append _ _ _ hF2len
    have hs3 : pySlice E (SYMBOL_BITS_FIELD + TREE_SIZE_FIELD_BITS)
        (SYMBOL_BITS_FIELD + TREE_SIZE_FIELD_BITS + ts) = serNode 8 root := by
      unfold pySlice
      rw [hd22]
      have : SYMBOL_BITS_FIELD + TREE_SIZE_FIELD_BITS + ts
          - (SYMBOL_BITS_FIELD + TREE_SIZE_FIELD_BITS) = ts := by omega
      rw [this]
      exact take_len_append _ _ _ rfl
    have hs4 : pySlice E (SYMBOL_BITS_FIELD + TREE_SIZE_FIELD_BITS + ts)
        (SYMBOL_BITS_FIELD + TREE_SIZE_FIELD_BITS + ts + LENGTH_FIELD_BITS)
        = padded olb LENGTH_FIELD_BITS := by
      unfold pySlice
      rw [hdte]
      have : SYMBOL_BITS_FIELD + TREE_SIZE_FIELD_BITS + ts + LENGTH_FIELD_BITS
          - (SYMBOL_BITS_FIELD + TREE_SIZE_FIELD_BITS + ts) = LENGTH_FIELD_BITS := by
        omega
      rw [this]
      exact take_len_append _ _ _ hF4len
    have hdec : huffman_decode E = data := by
      unfold huffman_decode
      rw [if_neg (by simpa [List.isEmpty_iff] using hEne)]
      dsimp only
      rw [hs1, bitsToNat_padded, hs2, bitsToNat_padded, hs3,
        deserialize_serNode 8 hsb8 root hsym]
      dsimp only
      rw [hs4, bitsToNat_padded, hdpay, holbits]
      -- per-item facts, and then split on the root's shape
      have hitem_path : ∀ it ∈ items,
          (∃ cd, List.lookup it.1 codes = some cd ∧ cd = it.2
            ∧ (it.1, it.2) ∈ genList root [])
          ∧ (padded it.1 8).length = 8 := by
        intro it hit
        rw [hitems] at hit
        obtain ⟨c, hc, rfl⟩ := List.mem_map.mp hit
        obtain ⟨cd, hcd, hgen⟩ := hlookup c hc
        have hgetd : (List.lookup (bitsToNat c) codes).getD [] = cd := by
          rw [hcd]; rfl
        constructor
        · refine ⟨cd, hcd, hgetd.symm, ?_⟩
          show (bitsToNat c, (List.lookup (bitsToNat c) codes).getD []) ∈ genList root []
          rw [hgetd]
          exact hgen
        · have : bitsToNat c < 2 ^ 8 := by
            have := bitsToNat_lt c
            rw [hchmem c hc] at this
            exact this
          exact padded_length hsb8 this
      cases hrt : root with
      | internal f0 l0 r0 =>
          rw [← hrt]
          have hwl := walk_payload (zeroFreq root) 8 data.length (by norm_num) items []
            (by
              intro it hit
              obtain ⟨⟨cd, hcd, hcdeq, hgen⟩, hplen⟩ := hitem_path it hit
              rw [hrt] at hgen
              obtain ⟨hpath, hne⟩ := genList_root_entries f0 l0 r0 (it.1, it.2) hgen
              rw [← hrt] at hpath
              exact ⟨IsPath_zeroFreq hpath, hne, hplen⟩)
            (by
              show 0 + 8 * items.length = data.length
              rw [hitems_len, Nat.zero_add, ← holbits]
              omega)
          rw [hwl, List.nil_append]
          have hitem_padded : items.map (fun it => padded it.1 8) = chunksOf 8 data := by
            rw [hitems, List.map_map]
            have hstep : List.map ((fun (it : Nat × List Bool) => padded it.1 8)
                ∘ fun c => (bitsToNat c, (List.lookup (bitsToNat c) codes).getD []))
                (chunksOf 8 data) = List.map id (chunksOf 8 data) :=
              List.map_congr_left (fun c hc => padded_of_length hsb8 (hchmem c hc))
            rw [hstep, List.map_id]
          rw [hitem_padded, hflat]
          exact List.take_length data
      | leaf s f0 =>
          have hslt : s < 2 ^ 8 := hsym s (by rw [hrt]; simp [leafMS])
          have hvals_eq : ∀ c ∈ chunksOf 8 data, bitsToNat c = s := by
            intro c hc
            have := hvals c hc
            rw [hrt] at this
            simpa [leafMS] using this
          have hcodes_eq : codes = [(s, [false])] := by
            rw [hcodes, hrt]
            rfl
          have hitems2 : items.map (·.2) = (chunksOf 8 data).map (fun _ => [false]) := by
            rw [hitems, List.map_map]
            refine List.map_congr_left ?_
            intro c hc
            show ((bitsToNat c, (List.lookup (bitsToNat c) codes).getD [])
              : Nat × List Bool).2 = [false]
            rw [hvals_eq c hc, hcodes_eq]
            simp [List.lookup]
          rw [hitems2, flatten_map_single []]
          have hzf : zeroFreq (HuffmanNode.leaf s f0) = HuffmanNode.leaf s 0 := rfl
          rw [hzf]
          have hwl := walk_leaf_root s 0 8 data.length (padded_length hsb8 hslt)
            (by norm_num) (chunksOf 8 data).length []
            (by
              show 0 + 8 * (chunksOf 8 data).length = data.length
              rw [hchlen, Nat.zero_add, ← holbits, holb]
              omega)
          rw [hwl, List.nil_append]
          have hrep : List.replicate (chunksOf 8 data).length (padded s 8)
              = chunksOf 8 data := by
            symm
            rw [List.eq_replicate_iff]
            refine ⟨rfl, ?_⟩
            intro c hc
            rw [← hvals_eq c hc]
            exact (padded_of_length hsb8 (hchmem c hc)).symm
          rw [hrep, hflat]
          exact List.take_length data
    exact ⟨E, henc, hdec⟩

/-- C1 counterexample: the one-bit buffer `1` (not byte-aligned) encodes
successfully but decodes to the empty buffer — the original length is stored
in whole bytes, so `1 // 8 = 0` bytes are reproduced. -/
theorem huffman_roundtrip_refuted :
    exOk (huffman_encode [true] 8) = true
    ∧ huffman_decode ((huffman_encode [true] 8).toOption.getD []) = [] := by
  exact ⟨rfl, rfl⟩

/-- C1 (amended): for every byte-aligned bit buffer of fewer than `2^17`
bytes, `huffman_decode (huffman_encode X)) = X` with the default symbol width
of 8 bits. -/
theorem huffman_roundtrip (X : List Bool) (h8 : 8 ∣ X.length)
    (hlen : X.length / 8 < 2 ^ 17) :
    ∃ e, huffman_encode X 8 = .ok e ∧ huffman_decode e = X :=
  huffman_roundtrip_aux X h8 hlen

/-- C1 witness: round trip on the single byte `'A'`. -/
theorem huffman_roundtrip_witness :
    huffman_decode ((huffman_encode byteA 8).toOption.getD []) = byteA := by
  obtain ⟨e, he, hdec⟩ := huffman_roundtrip byteA (by decide) (by decide)
  rw [he]
  exact hdec

/-- C5 counterexample: `symbol_bits = 64` does not fit the 6-bit header field,
yet `huffman_encode` succeeds (the field silently widens). -/
theorem huffman_encode_capacity_refuted :
    exOk (huffman_encode (List.replicate 8 false) 64) = true := by
  rfl

/-- C5 (amended): for nonempty input and `symbol_bits ≥ 1`, `huffman_encode`
raises exactly when the serialized tree needs at least `2^16` bits; an
oversized `symbol_bits` or original length is not checked. -/
theorem huffman_encode_capacity (data : List Bool) (sb : Nat) (hsb : 1 ≤ sb) :
    exOk (huffman_encode data sb) = true
      ↔ (data = []
        ∨ (serialize_tree (build_huffman_tree (build_frequency_table data sb)) sb).length
            < 2 ^ TREE_SIZE_FIELD_BITS) := by
  by_cases hd : data = []
  · subst hd
    constructor
    · intro _; exact Or.inl rfl
    · intro _; rfl
  · have hchne : chunksOf sb data ≠ [] := by
      rw [chunksOf_cons sb hsb data hd]
      simp
    obtain ⟨hnodup, hkeys⟩ := build_frequency_table_keys data sb hd
    have hftne : build_frequency_table data sb ≠ [] := by
      intro hft0
      cases hch : chunksOf sb data with
      | nil => exact hchne hch
      | cons c cs =>
          have h1 : bitsToNat c ∈ (chunksOf sb data).map bitsToNat := by
            rw [hch]; simp
          have h2 := (hkeys (bitsToNat c)).mpr h1
          rw [hft0] at h2
          simp at h2
    obtain ⟨root, hroot, _⟩ := build_huffman_tree_spec _ hftne
    unfold huffman_encode
    rw [if_neg (by simpa [List.isEmpty_iff] using hd)]
    dsimp only
    rw [hroot]
    dsimp only
    constructor
    · intro hok
      refine Or.inr ?_
      by_contra hge
      rw [if_pos (by omega)] at hok
      exact absurd hok (by simp [exOk])
    · rintro (h | h)
      · exact absurd h hd
      · rw [if_neg (by omega)]
        rfl

/-- C5 witness: a one-byte input with `symbol_bits = 8` has a 9-bit serialized
tree, well inside the 16-bit limit, and encoding succeeds. -/
theorem huffman_encode_capacity_witness :
    exOk (huffman_encode byteA 8) = true :=
  (huffman_encode_capacity byteA 8 (by decide)).mpr (Or.inr (by decide))

/-- A one-entry frequency table pushes one leaf and performs no merge: the heap
stays the singleton and `heap[0]` is the leaf itself. -/
theorem build_single (s f : Nat) :
    build_huffman_tree [(s, f)] = some (.leaf s f) := rfl

/-- The traversal of a lone leaf assigns the one-bit code `"0"`. -/
theorem codes_single (s f : Nat) :
    generate_huffman_codes (.leaf s f) = [(s, [false])] := rfl

/-- C7 (amended): a single-symbol table yields that symbol's leaf with no
merge; its code dictionary is the one-bit codeword `0`; and a nonempty
byte-aligned single-distinct-symbol input of fewer than `2^17` bytes round
trips through `huffman_encode`/`huffman_decode`. -/
theorem huffman_single_symbol :
    (∀ s f, build_huffman_tree [(s, f)] = some (.leaf s f))
    ∧ (∀ s f, generate_huffman_codes (.leaf s f) = [(s, [false])])
    ∧ (∀ (X : List Bool) (s : Nat), X ≠ [] → 8 ∣ X.length →
        X.length / 8 < 2 ^ 17 →
        (∀ c ∈ chunksOf 8 X, bitsToNat c = s) →
        ∃ e, huffman_encode X 8 = .ok e ∧ huffman_decode e = X) :=
  ⟨build_single, codes_single,
    fun X _ _ h8 hb _ => huffman_roundtrip_aux X h8 hb⟩

/-- C7 witness: the table `{65: 2}`, the leaf's codes, and the round trip on
the two-byte single-symbol input `"AA"`. -/
theorem huffman_single_symbol_witness :
    build_huffman_tree [(65, 2)] = some (.leaf 65 2)
    ∧ generate_huffman_codes (.leaf 65 2) = [(65, [false])]
    ∧ ∃ e, huffman_encode (byteA ++ byteA) 8 = .ok e
        ∧ huffman_decode e = byteA ++ byteA :=
  ⟨huffman_single_symbol.1 65 2, huffman_single_symbol.2.1 65 2,
    huffman_single_symbol.2.2 (byteA ++ byteA) 65 (by decide) (by decide)
      (by decide) (by decide)⟩

theorem replicate_false_ne_nil (n : Nat) (hn : 1 ≤ n) :
    List.replicate n false ≠ [] := by
  intro h0
  have h1 := congrArg List.length h0
  rw [List.length_replicate] at h1
  simp at h1
  omega

theorem chunksOf_replicate_false : ∀ k : Nat,
    chunksOf 8 (List.replicate (8 * k) false)
      = List.replicate k (List.replicate 8 false) := by
  intro k
  induction k with
  | zero => rw [Nat.mul_zero]; rfl
  | succ m ih =>
      rw [chunksOf_cons 8 (by norm_num) _
          (replicate_false_ne_nil (8 * (m + 1)) (by omega)),
        List.take_replicate, List.drop_replicate,
        (by omega : 8 ⊓ (8 * (m + 1)) = 8),
        (by omega : 8 * (m + 1) - 8 = 8 * m), ih]
      rfl

theorem foldl_bump_zero : ∀ (m c : Nat),
    List.foldl bump [(0, c)] (List.replicate m 0) = [(0, c + m)] := by
  intro m
  induction m with
  | zero => intro c; rfl
  | succ m ih =>
      intro c
      rw [List.replicate_succ, List.foldl_cons]
      show List.foldl bump [(0, c + 1)] (List.replicate m 0) = [(0, c + (m + 1))]
      rw [ih (c + 1), (by omega : c + 1 + m = c + (m + 1))]

theorem isEmpty_replicate_false (n : Nat) (hn : 1 ≤ n) :
    (List.replicate n false).isEmpty = false := by
  obtain ⟨m, rfl⟩ : ∃ m, n = m + 1 := ⟨n - 1, by omega⟩
  rw [List.replicate_succ]
  rfl

theorem bft_replicate (k : Nat) (hk : 1 ≤ k) :
    build_frequency_table (List.replicate (8 * k) false) 8 = [(0, k)] := by
  obtain ⟨m, rfl⟩ : ∃ m, k = m + 1 := ⟨k - 1, by omega⟩
  unfold build_frequency_table
  rw [if_neg (by
    rw [isEmpty_replicate_false (8 * (m + 1)) (by omega)]
    exact Bool.false_ne_true)]
  rw [chunksOf_replicate_false (m + 1), List.map_replicate,
    bitsToNat_replicate_false 8]
  rw [List.replicate_succ, List.foldl_cons]
  show List.foldl bump [(0, 1)] (List.replicate m 0) = [(0, m + 1)]
  rw [foldl_bump_zero m 1, (by omega : 1 + m = m + 1)]

theorem flatten_replicate_false : ∀ k : Nat,
    (List.replicate k ([false] : List Bool)).flatten = List.replicate k false := by
  intro k
  induction k with
  | zero => rfl
  | succ m ih =>
      rw [List.replicate_succ, List.flatten_cons, ih, List.replicate_succ]
      rfl


/-- `huffman_encode` on `k` zero bytes: a one-leaf tree serialized in 9 bits,
the byte count `k` written into the 17-bit length field (unchecked), and a
one-bit-per-symbol payload. -/
theorem henc_replicate (k : Nat) (hk : 1 ≤ k) :
    huffman_encode (List.replicate (8 * k) false) 8
      = .ok (padded 8 SYMBOL_BITS_FIELD ++ (padded 9 TREE_SIZE_FIELD_BITS
        ++ (serNode 8 (HuffmanNode.leaf 0 k)
          ++ (padded k LENGTH_FIELD_BITS ++ List.replicate k false)))) := by
  have hpay : (chunksOf 8 (List.replicate (8 * k) false)).map (fun chunk =>
      match List.lookup (bitsToNat chunk)
        (generate_huffman_codes (HuffmanNode.leaf 0 k)) with
      | some c => c
      | none => []) = List.replicate k ([false] : List Bool) := by
    rw [chunksOf_replicate_false k, List.map_replicate]
    congr 1
  unfold huffman_encode
  rw [if_neg (by
    rw [isEmpty_replicate_false (8 * k) (by omega)]
    exact Bool.false_ne_true)]
  dsimp only
  rw [bft_replicate k hk, build_single 0 k]
  dsimp only
  have hser : serialize_tree (some (HuffmanNode.leaf 0 k)) 8
      = serNode 8 (HuffmanNode.leaf 0 k) := rfl
  rw [hser]
  have hserlen : (serNode 8 (HuffmanNode.leaf 0 k)).length = 9 := by
    show (true :: padded 0 8).length = 9
    decide
  rw [if_neg (by
    rw [hserlen]
    norm_num [TREE_SIZE_FIELD_BITS])]
  rw [hpay, flatten_replicate_false, List.length_replicate, hserlen,
    (by omega : 8 * k / 8 = k)]
  rw [List.append_assoc, List.append_assoc, List.append_assoc]

/-- `huffman_decode` on a frame whose 9-bit tree region holds `t` and whose
17-bit length field reads `2^16` never emits more than `2^16` bytes, whatever
follows the length field. -/
theorem decode_len_le (t : HuffmanNode) (rest : List Bool)
    (h9 : (serNode 8 t).length = 9) (hsym : ∀ s ∈ leafMS t, s < 2 ^ 8) :
    (huffman_decode (padded 8 SYMBOL_BITS_FIELD ++ (padded 9 TREE_SIZE_FIELD_BITS
      ++ (serNode 8 t ++ ((true :: List.replicate 16 false) ++ rest))))).length
      ≤ 2 ^ 16 * 8 := by
  have hsb8 : (1 : Nat) ≤ 8 := by norm_num
  set E := padded 8 SYMBOL_BITS_FIELD ++ (padded 9 TREE_SIZE_FIELD_BITS
    ++ (serNode 8 t ++ ((true :: List.replicate 16 false) ++ rest))) with hE
  have hF1len : (padded 8 SYMBOL_BITS_FIELD).length = SYMBOL_BITS_FIELD :=
    padded_length (by norm_num [SYMBOL_BITS_FIELD]) (by norm_num [SYMBOL_BITS_FIELD])
  have hF2len : (padded 9 TREE_SIZE_FIELD_BITS).length = TREE_SIZE_FIELD_BITS :=
    padded_length (by norm_num [TREE_SIZE_FIELD_BITS])
      (by norm_num [TREE_SIZE_FIELD_BITS])
  have hEne : E ≠ [] := by
    rw [hE]
    intro h0
    have h1 := congrArg List.length h0
    rw [List.length_append, hF1len] at h1
    simp only [List.length_nil, SYMBOL_BITS_FIELD] at h1
    omega
  have hd6 : E.drop SYMBOL_BITS_FIELD
      = padded 9 TREE_SIZE_FIELD_BITS ++ (serNode 8 t
        ++ ((true :: List.replicate 16 false) ++ rest)) := by
    rw [hE]
    exact drop_len_append _ _ _ hF1len
  have hd22 : E.drop (SYMBOL_BITS_FIELD + TREE_SIZE_FIELD_BITS)
      = serNode 8 t ++ ((true :: List.replicate 16 false) ++ rest) := by
    rw [← List.drop_drop, hd6]
    exact drop_len_append _ _ _ hF2len
  have hdte : E.drop (SYMBOL_BITS_FIELD + TREE_SIZE_FIELD_BITS + 9)
      = (true :: List.replicate 16 false) ++ rest := by
    rw [← List.drop_drop, hd22]
    exact drop_len_append _ _ _ h9
  have hs1 : pySlice E 0 SYMBOL_BITS_FIELD = padded 8 SYMBOL_BITS_FIELD := by
    unfold pySlice
    rw [List.drop_zero, hE]
    have h60 : SYMBOL_BITS_FIELD - 0 = SYMBOL_BITS_FIELD := rfl
    rw [h60]
    exact take_len_append _ _ _ hF1len
  have hs2 : pySlice E SYMBOL_BITS_FIELD (SYMBOL_BITS_FIELD + TREE_SIZE_FIELD_BITS)
      = padded 9 TREE_SIZE_FIELD_BITS := by
    unfold pySlice
    rw [hd6]
    have harith : SYMBOL_BITS_FIELD + TREE_SIZE_FIELD_BITS - SYMBOL_BITS_FIELD
        = TREE_SIZE_FIELD_BITS := by omega
    rw [harith]
    exact take_len_append _ _ _ hF2len
  have hs3 : pySlice E (SYMBOL_BITS_FIELD + TREE_SIZE_FIELD_BITS)
      (SYMBOL_BITS_FIELD + TREE_SIZE_FIELD_BITS + 9) = serNode 8 t := by
    unfold pySlice
    rw [hd22]
    have harith : SYMBOL_BITS_FIELD + TREE_SIZE_FIELD_BITS + 9
        - (SYMBOL_BITS_FIELD + TREE_SIZE_FIELD_BITS) = 9 := by omega
    rw [harith]
    exact take_len_append _ _ _ h9
  have hs4 : pySlice E (SYMBOL_BITS_FIELD + TREE_SIZE_FIELD_BITS + 9)
      (SYMBOL_BITS_FIELD + TREE_SIZE_FIELD_BITS + 9 + LENGTH_FIELD_BITS)
      = true :: List.replicate 16 false := by
    unfold pySlice
    rw [hdte]
    have harith : SYMBOL_BITS_FIELD + TREE_SIZE_FIELD_BITS + 9 + LENGTH_FIELD_BITS
        - (SYMBOL_BITS_FIELD + TREE_SIZE_FIELD_BITS + 9) = LENGTH_FIELD_BITS := by
      omega
    rw [harith]
    exact take_len_append _ _ _ (by decide)
  unfold huffman_decode
  rw [if_neg (by simpa [List.isEmpty_iff] using hEne)]
  dsimp only
  rw [hs1, bitsToNat_padded, hs2, bitsToNat_padded, hs3,
    deserialize_serNode 8 hsb8 t hsym]
  dsimp only
  rw [hs4, (by decide : bitsToNat (true :: List.replicate 16 false) = 2 ^ 16)]
  exact List.length_take_le _ _

/-- C7 counterexample: the nonempty, byte-aligned input of `2^17` zero bytes —
a single distinct symbol — does not round trip: `huffman_encode` silently
writes its 18-bit original length into the 17-bit header field, and
`huffman_decode` reads the truncated length `2^16` back, so the decoded
buffer is shorter than the input. -/
theorem huffman_single_symbol_refuted :
    huffman_decode
        ((huffman_encode (List.replicate (8 * 2 ^ 17) false) 8).toOption.getD [])
      ≠ List.replicate (8 * 2 ^ 17) false := by
  have henc := henc_replicate (2 ^ 17) (by norm_num)
  have hpadbig : padded (2 ^ 17) LENGTH_FIELD_BITS
      = (true :: List.replicate 16 false) ++ [false] := by decide
  have hframe : padded 8 SYMBOL_BITS_FIELD ++ (padded 9 TREE_SIZE_FIELD_BITS
        ++ (serNode 8 (HuffmanNode.leaf 0 (2 ^ 17))
          ++ (padded (2 ^ 17) LENGTH_FIELD_BITS
            ++ List.replicate (2 ^ 17) false)))
      = padded 8 SYMBOL_BITS_FIELD ++ (padded 9 TREE_SIZE_FIELD_BITS
        ++ (serNode 8 (HuffmanNode.leaf 0 (2 ^ 17))
          ++ ((true :: List.replicate 16 false)
            ++ ([false] ++ List.replicate (2 ^ 17) false)))) := by
    rw [hpadbig, List.append_assoc]
  have hserlen : (serNode 8 (HuffmanNode.leaf 0 (2 ^ 17))).length = 9 := by
    show (true :: padded 0 8).length = 9
    decide
  have hsym : ∀ s ∈ leafMS (HuffmanNode.leaf 0 (2 ^ 17)), s < 2 ^ 8 := by
    intro s hs
    simp [leafMS] at hs
    subst hs
    norm_num
  have hdle := decode_len_le (HuffmanNode.leaf 0 (2 ^ 17))
    ([false] ++ List.replicate (2 ^ 17) false) hserlen hsym
  intro heq
  rw [henc] at heq
  have heq2 : huffman_decode (padded 8 SYMBOL_BITS_FIELD
      ++ (padded 9 TREE_SIZE_FIELD_BITS
        ++ (serNode 8 (HuffmanNode.leaf 0 (2 ^ 17))
          ++ (padded (2 ^ 17) LENGTH_FIELD_BITS
            ++ List.replicate (2 ^ 17) false))))
      = List.replicate (8 * 2 ^ 17) false := heq
  rw [hframe] at heq2
  have hlen := congrArg List.length heq2
  rw [List.length_replicate] at hlen
  rw [hlen] at hdle
  have h1 : (2 : Nat) ^ 16 * 8 = 524288 := by norm_num
  have h2 : 8 * 2 ^ 17 = 1048576 := by norm_num
  omega
